import Mathlib

/-!
Shallow embedding of the memory-pool allocator from
`src/apps/intermediate/memory_pool/src/memory_pool.c`.

Modelling conventions:
* Machine pointers are byte offsets from the base of the mmap-ed region
  (`Option Nat`, with `none` for `NULL`; the region base itself is nonzero and
  page aligned, so a non-null pointer is modelled by `some offset`).
* The region memory is a `Heap`: an association list from byte offset to the
  `BlockHeader` stored there.  `mmap(MAP_ANONYMOUS)` zero-fills the region, so
  reading an offset that was never written yields the all-zero header.
  Absorbed headers are never erased, exactly as in C, where coalescing leaves
  the absorbed block's header bytes in place.
* `size_t` values are `Nat`.  The one place where 64-bit wrap-around is
  semantically important is the bit masking inside `align_size`, which is
  modelled with an explicit `% 2^64`; the statistics counters and size fields
  never come near `2^64` in any state exercised by a theorem below.
* `sizeof(BlockHeader)` is 48 on an LP64 platform (4+pad, 8, 1+pad, 8, 8, 4+pad)
  and `getpagesize()` is 4096.
* The pool's `name` and `enable_debugging` fields and all `log_message` calls
  only affect logging output, never the allocator state; they are omitted.
  `free` is given an explicit result so that the distinct logged error paths
  (corruption / double free) stay observable.
-/

namespace MemPool

def POOL_SIGNATURE : Nat := 0xDEADBEEF

def BLOCK_SIGNATURE : Nat := 0xCAFEBABE

def MIN_BLOCK_SIZE : Nat := 16

def MAX_FREE_LISTS : Nat := 32

/-- `sizeof(BlockHeader)` on the LP64 platform the program targets. -/
def headerSize : Nat := 48

/-- `getpagesize()`. -/
def pageSize : Nat := 4096

/-- `2^64`, the modulus of `size_t` arithmetic. -/
def U64 : Nat := 2 ^ 64

/-- `struct BlockHeader`.  `next` doubles as the free-list link and the
physical successor, `prev` as the free-list back link and the physical
predecessor — the C struct has a single pointer pair serving both roles. -/
structure BlockHeader where
  signature : Nat
  size : Nat
  is_free : Bool
  next : Option Nat
  prev : Option Nat
  magic : Nat
deriving Repr, DecidableEq

/-- The all-zero header read from zero-filled memory that was never written. -/
def zeroHeader : BlockHeader :=
  { signature := 0, size := 0, is_free := false, next := none, prev := none, magic := 0 }

/-- Region memory: written block headers, keyed by byte offset. -/
abbrev Heap := List (Nat × BlockHeader)

/-- Read the header at offset `x`; unwritten memory reads as `zeroHeader`. -/
def Heap.get : Heap → Nat → BlockHeader
  | [], _ => zeroHeader
  | (a, b) :: t, x => if a = x then b else Heap.get t x

/-- Store a header at offset `x`. -/
def Heap.set : Heap → Nat → BlockHeader → Heap
  | [], x, v => [(x, v)]
  | (a, b) :: t, x, v => if a = x then (x, v) :: t else (a, b) :: Heap.set t x v

/-- `struct FreeList`.  `block_size` is declared and initialised but never
assigned a nonzero value anywhere in the program. -/
structure FreeList where
  block_size : Nat
  head : Option Nat
  count : Nat
deriving Repr, DecidableEq

def emptyFreeList : FreeList := { block_size := 0, head := none, count := 0 }

/-- `MemoryPool` (the arena).  `memory` (the mmap base) is kept outside the
structure: all pointers are offsets from it, and it is non-null whenever the
pool was successfully initialised. -/
structure MemoryPool where
  signature : Nat
  total_size : Nat
  used_size : Nat
  peak_usage : Nat
  alignment : Nat
  num_allocations : Nat
  num_deallocations : Nat
  num_blocks : Nat
  free_lists : List FreeList
  first_block : Option Nat
  heap : Heap
deriving Repr, DecidableEq

/-- `align_size`: `(size + alignment - 1) & ~(alignment - 1)` in `size_t`
arithmetic.  `alignment - 1` wraps when `alignment = 0`, and `~` is complement
within 64 bits, both made explicit here. -/
def align_size (size alignment : Nat) : Nat :=
  Nat.land ((size + (alignment + U64 - 1) % U64) % U64)
    (U64 - 1 - (alignment + U64 - 1) % U64)

/-- The `while` loop of `get_free_list_index` for sizes above 4096: doubling
thresholds starting at 8192 from index 9.  The loop guard bounds `index` by
`MAX_FREE_LISTS - 1`, so structural recursion on a fuel of `MAX_FREE_LISTS`
never cuts the loop short (the wrapper `flLoop` supplies it). -/
def flLoopAux (size : Nat) : Nat → Nat → Nat → Nat
  | 0, index, _ => index
  | fuel + 1, index, threshold =>
    if index < MAX_FREE_LISTS - 1 ∧ threshold < size then
      flLoopAux size fuel (index + 1) (threshold * 2)
    else index

def flLoop (size index threshold : Nat) : Nat :=
  flLoopAux size MAX_FREE_LISTS index threshold

/-- `get_free_list_index`: size-class cut points 16…4096 then the doubling
loop. -/
def get_free_list_index (size : Nat) : Nat :=
  if size ≤ 16 then 0
  else if size ≤ 32 then 1
  else if size ≤ 64 then 2
  else if size ≤ 128 then 3
  else if size ≤ 256 then 4
  else if size ≤ 512 then 5
  else if size ≤ 1024 then 6
  else if size ≤ 2048 then 7
  else if size ≤ 4096 then 8
  else flLoop size 9 8192

/-- `validate_block`: null check, both signatures, and positive size. -/
def validate_block (heap : Heap) (block : Option Nat) : Bool :=
  match block with
  | none => false
  | some a =>
    let b := heap.get a
    (b.signature == BLOCK_SIGNATURE) && (b.magic == BLOCK_SIGNATURE) && (decide (0 < b.size))

/-- `memory_pool_init`.  `poolNull` models passing a `NULL` pool pointer.
`mmap` is modelled as always succeeding with a zero-filled region (the
`MAP_FAILED` branch is the `ResourceExhausted` path, outside the state model).
Note the C code accepts any nonzero `alignment` (the power-of-two check lives
in `main`'s flag parsing, not here) and substitutes 8 for `alignment == 0`. -/
def memory_pool_init (poolNull : Bool) (size alignment : Nat) : Option MemoryPool :=
  if poolNull ∨ size = 0 then none
  else
    let sz := align_size size pageSize
    let initial : BlockHeader :=
      { signature := BLOCK_SIGNATURE, size := sz - headerSize, is_free := true,
        next := none, prev := none, magic := BLOCK_SIGNATURE }
    let li := get_free_list_index (sz - headerSize)
    some
      { signature := POOL_SIGNATURE
        total_size := sz
        used_size := 0
        peak_usage := 0
        alignment := if 0 < alignment then alignment else 8
        num_allocations := 0
        num_deallocations := 0
        num_blocks := 1
        free_lists := (List.range MAX_FREE_LISTS).map fun i =>
          if i = li then { block_size := 0, head := some 0, count := 1 } else emptyFreeList
        first_block := some 0
        heap := Heap.set [] 0 initial }

/-- `split_block`.  Heap writes follow the C statement order, re-reading
through the heap exactly where the C re-reads through pointers, so aliasing
behaves identically.  The `remaining` subtraction is `size_t` arithmetic
(wrapping), made explicit.  Returns the updated pool and the new tail block
(`none` when no split occurred; both no-split paths leave the pool
untouched). -/
def split_block (pool : MemoryPool) (block : Option Nat) (requested_size : Nat) :
    MemoryPool × Option Nat :=
  match block with
  | none => (pool, none)
  | some baddr =>
    if ¬ validate_block pool.heap (some baddr) then (pool, none)
    else
      let b := pool.heap.get baddr
      let aligned := align_size requested_size pool.alignment
      let remaining := (b.size + (U64 - aligned)) % U64
      if remaining < headerSize + MIN_BLOCK_SIZE then (pool, none)
      else
        let naddr := baddr + headerSize + aligned
        let h1 := pool.heap.set naddr
          { signature := BLOCK_SIGNATURE, size := remaining - headerSize, is_free := true,
            next := none, prev := some baddr, magic := BLOCK_SIGNATURE }
        let h2 := h1.set baddr { h1.get baddr with size := aligned }
        let h3 :=
          match (h2.get baddr).next with
          | some nx =>
            let h' := h2.set nx { h2.get nx with prev := some naddr }
            h'.set naddr { h'.get naddr with next := some nx }
          | none => h2
        let h4 := h3.set baddr { h3.get baddr with next := some naddr }
        ({ pool with heap := h4, num_blocks := pool.num_blocks + 1 }, some naddr)

/-- Forward half of `coalesce_blocks`: the `while (block->next && ...)` loop.
The C loop only terminates through its break conditions; the fuel bounds the
walk (any well-formed chain has fewer blocks than written headers, so the
callers' fuel of `heap.length + 1` never runs out on states the C code
terminates on). -/
def coalesceForward (pool : MemoryPool) (baddr : Nat) : Nat → MemoryPool
  | 0 => pool
  | fuel + 1 =>
    let b := pool.heap.get baddr
    match b.next with
    | none => pool
    | some nx =>
      let nb := pool.heap.get nx
      if nb.is_free && validate_block pool.heap (some nx) then
        if baddr + headerSize + b.size = nx then
          let h1 := pool.heap.set baddr
            { b with size := b.size + headerSize + nb.size, next := nb.next }
          let h2 :=
            match nb.next with
            | some nn => h1.set nn { h1.get nn with prev := some baddr }
            | none => h1
          coalesceForward
            { pool with heap := h2, num_blocks := pool.num_blocks - 1 } baddr fuel
        else pool
      else pool

/-- Backward half of `coalesce_blocks`: the `while (block->prev && ...)` loop.
Returns the surviving (possibly lower) block offset. -/
def coalesceBackward (pool : MemoryPool) (baddr : Nat) : Nat → MemoryPool × Nat
  | 0 => (pool, baddr)
  | fuel + 1 =>
    let b := pool.heap.get baddr
    match b.prev with
    | none => (pool, baddr)
    | some pv =>
      let pb := pool.heap.get pv
      if pb.is_free && validate_block pool.heap (some pv) then
        if pv + headerSize + pb.size = baddr then
          let h1 := pool.heap.set pv
            { pb with size := pb.size + headerSize + b.size, next := b.next }
          let h2 :=
            match b.next with
            | some nn => h1.set nn { h1.get nn with prev := some pv }
            | none => h1
          coalesceBackward
            { pool with heap := h2, num_blocks := pool.num_blocks - 1 } pv fuel
        else (pool, baddr)
      else (pool, baddr)

/-- `coalesce_blocks`: guard, then the forward and backward merge loops. -/
def coalesce_blocks (pool : MemoryPool) (block : Option Nat) : MemoryPool × Option Nat :=
  match block with
  | none => (pool, none)
  | some baddr =>
    if ¬ validate_block pool.heap (some baddr) ∨ ¬ (pool.heap.get baddr).is_free then
      (pool, some baddr)
    else
      let p1 := coalesceForward pool baddr (pool.heap.length + 1)
      let r2 := coalesceBackward p1 baddr (p1.heap.length + 1)
      (r2.1, some r2.2)

/-- `remove_from_free_list`.  The head fix-up reads `block->next` before the
pointer surgery, the `block->prev` read happens after the `next`-side write,
and `block`'s own links are zeroed last — all exactly as in C. -/
def remove_from_free_list (pool : MemoryPool) (block : Option Nat) (list_index : Nat) :
    MemoryPool :=
  match block with
  | none => pool
  | some baddr =>
    if MAX_FREE_LISTS ≤ list_index then pool
    else
      let b := pool.heap.get baddr
      let l := pool.free_lists.getD list_index emptyFreeList
      let l1 := if l.head = some baddr then { l with head := b.next } else l
      let h1 :=
        match b.next with
        | some nx => pool.heap.set nx { pool.heap.get nx with prev := b.prev }
        | none => pool.heap
      let h2 :=
        match (h1.get baddr).prev with
        | some pv => h1.set pv { h1.get pv with next := (h1.get baddr).next }
        | none => h1
      let h3 := h2.set baddr { h2.get baddr with next := none, prev := none }
      { pool with heap := h3
                  free_lists :=
                    pool.free_lists.set list_index { l1 with count := l1.count - 1 } }

/-- `add_to_free_list`: head insertion into the bucket chosen by the block's
current size. -/
def add_to_free_list (pool : MemoryPool) (block : Option Nat) : MemoryPool :=
  match block with
  | none => pool
  | some baddr =>
    if ¬ validate_block pool.heap (some baddr) then pool
    else
      let b := pool.heap.get baddr
      let li := get_free_list_index b.size
      let l := pool.free_lists.getD li emptyFreeList
      let h1 := pool.heap.set baddr { b with next := l.head, prev := none }
      let h2 :=
        match l.head with
        | some hd => h1.set hd { h1.get hd with prev := some baddr }
        | none => h1
      { pool with heap := h2
                  free_lists :=
                    pool.free_lists.set li { l with head := some baddr, count := l.count + 1 } }

/-- Whether a block is accepted by the allocation search: valid header, free,
and large enough. -/
def eligible (heap : Heap) (aligned a : Nat) : Bool :=
  validate_block heap (some a) && (heap.get a).is_free && decide (aligned ≤ (heap.get a).size)

/-- The update test of the search loop: `!best_block || block->size <
best_block->size`. -/
def improves (heap : Heap) (a : Nat) : Option Nat → Bool
  | none => true
  | some ba => decide ((heap.get a).size < (heap.get ba).size)

/-- The loop-break test `best_block && best_block->size == aligned_size`. -/
def perfectFit (heap : Heap) (al : Nat) : Option Nat → Bool
  | none => false
  | some ba => decide ((heap.get ba).size = al)

/-- The inner loop of `memory_pool_alloc`'s search: walk one bucket keeping
the best (strictly smallest) fit, breaking out at a perfect fit. -/
def searchList (heap : Heap) (aligned : Nat) (cur best : Option Nat) : Nat → Option Nat
  | 0 => best
  | fuel + 1 =>
    match cur with
    | none => best
    | some a =>
      let b := heap.get a
      if eligible heap aligned a then
        if improves heap a best then
          if b.size = aligned then some a
          else searchList heap aligned b.next (some a) fuel
        else searchList heap aligned b.next best fuel
      else searchList heap aligned b.next best fuel

/-- The outer loop of `memory_pool_alloc`'s search: buckets from the start
class upward, breaking only once the best fit is perfect.  Returns the chosen
block and the bucket index it was found in. -/
def searchFromAux (pool : MemoryPool) (aligned : Nat) :
    Nat → Nat → Option Nat → Nat → Option Nat × Nat
  | 0, _, best, bestIdx => (best, bestIdx)
  | fuel + 1, i, best, bestIdx =>
    if i < MAX_FREE_LISTS then
      let l := pool.free_lists.getD i emptyFreeList
      let best' := searchList pool.heap aligned l.head best (pool.heap.length + 1)
      let bestIdx' := if best' = best then bestIdx else i
      if perfectFit pool.heap aligned best' then (best', bestIdx')
      else searchFromAux pool aligned fuel (i + 1) best' bestIdx'
    else (best, bestIdx)

/-- Wrapper supplying the exact fuel: the loop index runs from `i` to at most
`MAX_FREE_LISTS`, so `MAX_FREE_LISTS - i` steps always reach the loop exit. -/
def searchFrom (pool : MemoryPool) (aligned : Nat) (i : Nat) (best : Option Nat)
    (bestIdx : Nat) : Option Nat × Nat :=
  searchFromAux pool aligned (MAX_FREE_LISTS - i) i best bestIdx

/-- `best_block->is_free = false` in `memory_pool_alloc`. -/
def allocMark (pool3 : MemoryPool) (baddr : Nat) : MemoryPool :=
  { pool3 with heap := pool3.heap.set baddr { pool3.heap.get baddr with is_free := false } }

/-- The statistics update of `memory_pool_alloc`: `used_size +=
best_block->size; num_allocations++;` and the peak-usage watermark. -/
def allocStats (pool4 : MemoryPool) (baddr : Nat) : MemoryPool :=
  let pool5 :=
    { pool4 with used_size := pool4.used_size + (pool4.heap.get baddr).size
                 num_allocations := pool4.num_allocations + 1 }
  if pool5.peak_usage < pool5.used_size then { pool5 with peak_usage := pool5.used_size }
  else pool5

/-- The mutation sequence of `memory_pool_alloc` once a block was chosen:
unlink it, split it if possible (inserting the tail into its bucket), mark it
in use, update the statistics. -/
def allocCore (pool : MemoryPool) (baddr bestIdx aligned : Nat) : MemoryPool :=
  let pool1 := remove_from_free_list pool (some baddr) bestIdx
  let sres := split_block pool1 (some baddr) aligned
  let pool3 :=
    match sres.2 with
    | some s => add_to_free_list sres.1 (some s)
    | none => sres.1
  allocStats (allocMark pool3 baddr) baddr

/-- `memory_pool_alloc`.  Returns the updated pool and the payload offset
(`baddr + headerSize`), or `none` on any failure path. -/
def memory_pool_alloc (pool : MemoryPool) (size : Nat) : MemoryPool × Option Nat :=
  if pool.signature ≠ POOL_SIGNATURE ∨ size = 0 then (pool, none)
  else
    let aligned := align_size size pool.alignment
    let total := aligned + headerSize
    if pool.total_size - pool.used_size < total then (pool, none)
    else
      match searchFrom pool aligned (get_free_list_index aligned) none 0 with
      | (none, _) => (pool, none)
      | (some baddr, bestIdx) => (allocCore pool baddr bestIdx aligned, some (baddr + headerSize))

/-- The distinct exits of `memory_pool_free`, mirroring the logged error
messages. -/
inductive FreeResult where
  | ok | badCall | corruption | doubleFree
deriving Repr, DecidableEq

/-- The mutation sequence of `memory_pool_free` once the header passed its
checks: update the statistics, mark the block free, coalesce, and insert the
surviving block into its bucket. -/
def freeCore (pool : MemoryPool) (baddr : Nat) : MemoryPool :=
  let pool1 :=
    { pool with used_size := pool.used_size - (pool.heap.get baddr).size
                num_deallocations := pool.num_deallocations + 1 }
  let pool2 :=
    { pool1 with heap := pool1.heap.set baddr { pool.heap.get baddr with is_free := true } }
  let cres := coalesce_blocks pool2 (some baddr)
  add_to_free_list cres.1 cres.2

/-- `memory_pool_free`.  The payload pointer is an offset; `none` is `NULL`. -/
def memory_pool_free (pool : MemoryPool) (ptr : Option Nat) : MemoryPool × FreeResult :=
  match ptr with
  | none => (pool, .badCall)
  | some p =>
    if pool.signature ≠ POOL_SIGNATURE then (pool, .badCall)
    else
      let baddr := p - headerSize
      if ¬ validate_block pool.heap (some baddr) then (pool, .corruption)
      else if (pool.heap.get baddr).is_free then (pool, .doubleFree)
      else (freeCore pool baddr, .ok)

/-- The block-chain walk of `validate_pool`: follow `next` from a block,
summing the sizes of in-use blocks, failing on an invalid header or after more
than 10000 blocks.  Returns the computed in-use sum, or `none` on failure. -/
def validateWalkAux (heap : Heap) : Nat → Option Nat → Nat → Nat → Option Nat
  | 0, cur, _, calcUsed =>
    match cur with
    | none => some calcUsed
    | some _ => none
  | fuel + 1, cur, blocks, calcUsed =>
    match cur with
    | none => some calcUsed
    | some a =>
      if ¬ validate_block heap (some a) then none
      else
        let b := heap.get a
        let calc1 := if ¬ b.is_free then calcUsed + b.size else calcUsed
        if 10000 < blocks + 1 then none
        else validateWalkAux heap fuel b.next (blocks + 1) calc1

/-- Wrapper supplying exact fuel: the 10000-block cap fires strictly before
`10002 - blocks` recursion steps are exhausted, and at fuel 0 the only reach-
able outcomes agree with the capped C loop. -/
def validateWalk (heap : Heap) (cur : Option Nat) (blocks calcUsed : Nat) : Option Nat :=
  validateWalkAux heap (10002 - blocks) cur blocks calcUsed

/-- `validate_pool`: signature and configuration checks, chain walk, and the
used-size cross-check.  (`pool->memory` is non-null whenever `init`
succeeded.) -/
def validate_pool (pool : MemoryPool) : Bool :=
  if pool.signature ≠ POOL_SIGNATURE then false
  else if pool.total_size = 0 then false
  else
    match validateWalk pool.heap pool.first_block 0 0 with
    | none => false
    | some c => c == pool.used_size

/-- The physical chain as seen by every walker in the program
(`dump_pool_layout`, `validate_pool`): offsets reached from a start pointer by
following `next`. -/
def chainWalk (heap : Heap) (cur : Option Nat) : Nat → List Nat
  | 0 => []
  | fuel + 1 =>
    match cur with
    | none => []
    | some a => a :: chainWalk heap (heap.get a).next fuel

/-- Instrumentation of `memory_pool_alloc`'s bucket loop: identical control
flow to `searchFromAux`, recording each bucket index whose list walk is
executed (the loop body including its inner `for` runs for exactly these
indices). -/
def searchExaminedAux (pool : MemoryPool) (aligned : Nat) :
    Nat → Nat → Option Nat → List Nat
  | 0, _, _ => []
  | fuel + 1, i, best =>
    if i < MAX_FREE_LISTS then
      let l := pool.free_lists.getD i emptyFreeList
      let best' := searchList pool.heap aligned l.head best (pool.heap.length + 1)
      if perfectFit pool.heap aligned best' then [i]
      else i :: searchExaminedAux pool aligned fuel (i + 1) best'
    else []

def searchExamined (pool : MemoryPool) (aligned : Nat) (i : Nat) : List Nat :=
  searchExaminedAux pool aligned (MAX_FREE_LISTS - i) i none

/-- The contents of free-list bucket `i` as the C list walk enumerates them. -/
def bucketAddrs (pool : MemoryPool) (i : Nat) : List Nat :=
  chainWalk pool.heap (pool.free_lists.getD i emptyFreeList).head (pool.heap.length + 1)

/-- One best-fit update step, exactly the acceptance test of the search loop:
a candidate replaces the incumbent iff it is eligible and strictly smaller. -/
def betterFit (heap : Heap) (aligned : Nat) (best : Option Nat) (a : Nat) : Option Nat :=
  if eligible heap aligned a && improves heap a best then some a
  else best

def foldBest (heap : Heap) (aligned : Nat) (xs : List Nat) (best : Option Nat) : Option Nat :=
  xs.foldl (betterFit heap aligned) best

def foldBuckets (pool : MemoryPool) (aligned : Nat) (is : List Nat) (best : Option Nat) :
    Option Nat :=
  is.foldl (fun b i => foldBest pool.heap aligned (bucketAddrs pool i) b) best

/-- Modelled from the spec, §4.4 step 2: starting at the class of the rounded
size, stop at the first bucket containing any candidate and return the best
fit within that bucket (ties broken by list order). -/
def specSearch (pool : MemoryPool) (aligned : Nat) : Option Nat :=
  let c := get_free_list_index aligned
  match (List.range' c (MAX_FREE_LISTS - c)).find?
      (fun i => (bucketAddrs pool i).any (eligible pool.heap aligned)) with
  | none => none
  | some i => foldBest pool.heap aligned (bucketAddrs pool i) none

/-- Spec §8 item 4: the in-use payload sum over the block chain as reached
from `first_block`. -/
def chainUsedSum (pool : MemoryPool) (fuel : Nat) : Nat :=
  ((chainWalk pool.heap pool.first_block fuel).map
    (fun a => if (pool.heap.get a).is_free then 0 else (pool.heap.get a).size)).sum

/-- Spec §8 item 1: the number of region bytes covered by the block chain as
reached from `first_block`. -/
def chainCoverage (pool : MemoryPool) (fuel : Nat) : Nat :=
  ((chainWalk pool.heap pool.first_block fuel).map
    (fun a => headerSize + (pool.heap.get a).size)).sum

/-- A zero pool, used only as the (never taken) default of `Option.getD`. -/
def emptyPool : MemoryPool :=
  { signature := 0, total_size := 0, used_size := 0, peak_usage := 0, alignment := 0,
    num_allocations := 0, num_deallocations := 0, num_blocks := 0, free_lists := [],
    first_block := none, heap := [] }

/-- A fresh arena: `memory_pool_init(&pool, 4096, 8, ...)`.  The region is one
page; the initial block has payload 4048 in class 8. -/
def pool0 : MemoryPool := (memory_pool_init false 4096 8).getD emptyPool

/-- `pool0` after `alloc(1952)`, which returns payload offset 48 and splits
the initial block into blocks at offsets 0 (payload 1952) and 2000
(payload 2048). -/
def poolA : MemoryPool := (memory_pool_alloc pool0 1952).1

/-- `poolA` after `alloc(2048)`, which returns payload offset 2048, a perfect
fit for the tail block at offset 2000 (no split). -/
def poolB : MemoryPool := (memory_pool_alloc poolA 2048).1

/-- `poolB` after `free` of the first payload (offset 48).  Reachable from a
fresh init by `alloc(1952); alloc(2048); free(p1)`. -/
def poolS : MemoryPool := (memory_pool_free poolB (some 48)).1

/-- `poolS` after `alloc(1952)` (perfect fit at offset 0 again). -/
def poolS2 : MemoryPool := (memory_pool_alloc poolS 1952).1

/-- `poolS2` after `free(p2); free(p3)`: the final state of the trace
`init; alloc 1952; alloc 2048; free p1; alloc 1952; free p2; free p3`. -/
def poolC2 : MemoryPool :=
  (memory_pool_free (memory_pool_free poolS2 (some 2048)).1 (some 48)).1

/-- A fresh arena with alignment 32: `memory_pool_init(&pool, 4096, 32, ...)`. -/
def pool32 : MemoryPool := (memory_pool_init false 4096 32).getD emptyPool

/-- Equality of the fields that pure pointer surgery (free-list linking and
unlinking) never writes. -/
def sameCore (b1 b2 : BlockHeader) : Prop :=
  b1.signature = b2.signature ∧ b1.magic = b2.magic ∧ b1.size = b2.size ∧
    b1.is_free = b2.is_free

/-- Equality of the fields that coalescing never writes (it grows sizes). -/
def sameTag (b1 b2 : BlockHeader) : Prop :=
  b1.signature = b2.signature ∧ b1.magic = b2.magic ∧ b1.is_free = b2.is_free

/-- Heap evolution under coalescing: every header keeps its tag fields and
never shrinks. -/
def tagLe (hA hB : Heap) : Prop :=
  ∀ x, sameTag (hB.get x) (hA.get x) ∧ (hA.get x).size ≤ (hB.get x).size

/-- Divisibility of an optional pointer: `none` passes, `some y` requires
`a ∣ y`. -/
def optDiv (a : Nat) : Option Nat → Prop
  | none => True
  | some y => a ∣ y

/-- Alignment invariant of a region: every written offset is a multiple of
`a`, and the links stored at any multiple of `a` again point at multiples of
`a` (unwritten offsets read as `zeroHeader`, whose links are null). -/
def HDiv (a : Nat) (h : Heap) : Prop :=
  (∀ e ∈ h, a ∣ e.1) ∧
  ∀ x : Nat, a ∣ x → optDiv a (Heap.get h x).next ∧ optDiv a (Heap.get h x).prev

/-- Alignment invariant of a pool: the configured alignment is `a`, the heap
satisfies `HDiv`, and every bucket head is a multiple of `a`. -/
def DivInv (a : Nat) (pool : MemoryPool) : Prop :=
  pool.alignment = a ∧ HDiv a pool.heap ∧
  ∀ i : Nat, optDiv a (pool.free_lists.getD i emptyFreeList).head

/-- Pool states reachable through the public API from a successful
`memory_pool_init` with alignment `a`. -/
inductive Reached (a : Nat) : MemoryPool → Prop where
  | init : ∀ size pool, memory_pool_init false size a = some pool → Reached a pool
  | alloc : ∀ pool n, Reached a pool → Reached a (memory_pool_alloc pool n).1
  | free : ∀ pool ptr, Reached a pool → Reached a (memory_pool_free pool ptr).1

/-- C1: counterexample.  In `poolS` — reachable from a fresh `init(4096, 8)`
by `alloc(1952); alloc(2048); free(p1)` — the next `alloc(1952)` succeeds
(returning payload offset 48), yet after immediately freeing that payload
`validate_pool` fails, because freeing rewrote the freed block's `next` link
to its free-list successor and the chain walk no longer reaches the block
still holding the 2048 in-use bytes.  The round trip does restore
`used_size`, but the claimed `validate` clause is false. -/
theorem c1_roundtrip_validate_fails :
    (memory_pool_alloc poolS 1952).2 = some 48 ∧
    (memory_pool_free (memory_pool_alloc poolS 1952).1 (some 48)).1.used_size
      = poolS.used_size ∧
    validate_pool (memory_pool_free (memory_pool_alloc poolS 1952).1 (some 48)).1 = false := by
  decide

/-- C2: after the final `free` of the trace
`init(4096,8); alloc 1952 → p1; alloc 2048 → p2; free p1; alloc 1952 → p3;
free p2; free p3` (every step of which succeeds, as the preceding conjuncts
record), the chain from `first_block` is the blocks at offsets 0 and 2000,
they are physically adjacent (0 + 48 + 1952 = 2000), and both are free: the
coalescing invariant of the claim is violated on a reachable state.  The
final `free` saw a zeroed `next` pointer (cleared when the block was
re-allocated), so its coalesce pass never reached the adjacent free
neighbour; the `next = some 2000` link was then installed by the free-list
insertion, whose head happened to be exactly that neighbour. -/
theorem c2_adjacent_free_blocks :
    (memory_pool_alloc poolS 1952).2 = some 48 ∧
    (memory_pool_free poolS2 (some 2048)).2 = FreeResult.ok ∧
    (memory_pool_free (memory_pool_free poolS2 (some 2048)).1 (some 48)).2 = FreeResult.ok ∧
    chainWalk poolC2.heap poolC2.first_block 3 = [0, 2000] ∧
    (poolC2.heap.get 0).is_free = true ∧
    (poolC2.heap.get 0).next = some 2000 ∧
    0 + headerSize + (poolC2.heap.get 0).size = 2000 ∧
    (poolC2.heap.get 2000).is_free = true := by
  decide

/-- C3: in the reachable state `poolS` (after `alloc 1952; alloc 2048;
free p1` from a fresh init) the used-byte accounting invariant fails:
`used_size` is 2048 (the second allocation is still live at offset 2000) but
the sum of in-use payloads over the chain reachable from `first_block` is 0,
and `validate_pool` — whose walk computes exactly that sum — reports
failure.  The live block is unreachable because freeing p1 overwrote the
first block's `next` with its free-list link (null, the class-7 bucket was
empty). -/
theorem c3_used_accounting_fails :
    poolS.used_size = 2048 ∧
    chainUsedSum poolS 10001 = 0 ∧
    validate_pool poolS = false := by
  decide

/-- C4: in the same reachable state `poolS` the chain-exhaustiveness
invariant fails: the chain from `first_block` is just the block at offset 0
and covers 48 + 1952 = 2000 bytes of the 4096-byte region. -/
theorem c4_chain_coverage_fails :
    chainWalk poolS.heap poolS.first_block 10001 = [0] ∧
    chainCoverage poolS 10001 = 2000 ∧
    poolS.total_size = 4096 := by
  decide

/-- C5: counterexample to the stop-after-candidate clause.  In the fresh
arena, `alloc(100)` rounds to 104 and starts its search at class 3; the only
candidate (the initial 4048-byte block, not a perfect fit) is found in
bucket 8, yet the loop goes on to examine every bucket up to 31 — the code
breaks out of the bucket loop only on a perfect fit, not whenever a
candidate was found. -/
theorem c5_search_scans_higher_classes :
    align_size 100 pool0.alignment = 104 ∧
    get_free_list_index 104 = 3 ∧
    searchFrom pool0 104 3 none 0 = (some 0, 8) ∧
    searchExamined pool0 104 3 = [3, 4, 5, 6, 7, 8, 9, 10, 11, 12, 13, 14, 15, 16,
      17, 18, 19, 20, 21, 22, 23, 24, 25, 26, 27, 28, 29, 30, 31] := by
  decide

/-- C6: counterexample.  With alignment 32 (a power of two ≥ 8, as `main`'s
`-a` flag accepts), the fresh arena's first `alloc` returns payload offset
48; for any page-aligned region base (mmap guarantees page alignment, e.g.
base 4096) the payload address is ≡ 16 (mod 32).  The code aligns sizes but
never aligns the payload address itself, and the 48-byte header is not a
multiple of 32. -/
theorem c6_alignment32_misaligned :
    Nat.land 32 (32 - 1) = 0 ∧
    pool32.alignment = 32 ∧
    (memory_pool_alloc pool32 8).2 = some 48 ∧
    4096 % 4096 = 0 ∧
    (4096 + 48) % 32 = 16 := by
  decide

/-- C7: counterexample.  `memory_pool_init` accepts a non-power-of-two
alignment: with alignment 3 (which fails `main`'s own power-of-two test
`(align & (align - 1)) == 0`) it succeeds and stores alignment 3.  The
power-of-two check lives only in the CLI argument parsing, not in `init`. -/
theorem c7_init_accepts_non_pow2_alignment :
    Nat.land 3 (3 - 1) ≠ 0 ∧
    (memory_pool_init false 4096 3).isSome = true ∧
    ((memory_pool_init false 4096 3).getD emptyPool).alignment = 3 := by
  decide

/-- C7 (amended): `memory_pool_init` fails exactly when the pool reference is
null or the requested size is zero; the alignment argument is never a reason
to fail (zero alignment is silently replaced by the default 8). -/
theorem c7_init_failure_iff (poolNull : Bool) (size alignment : Nat) :
    memory_pool_init poolNull size alignment = none ↔ (poolNull = true ∨ size = 0) := by
  unfold memory_pool_init
  split_ifs with h
  · simp only [true_iff]
    rcases h with h | h
    · exact Or.inl h
    · exact Or.inr h
  · simp only [false_iff]
    push_neg at h ⊢
    exact ⟨by simpa using h.1, h.2⟩

theorem Heap.get_set (h : Heap) (a : Nat) (b : BlockHeader) (x : Nat) :
    (h.set a b).get x = if a = x then b else h.get x := by
  induction h with
  | nil => simp [Heap.set, Heap.get]
  | cons hd tl ih =>
    obtain ⟨a0, b0⟩ := hd
    by_cases h1 : a0 = a
    · subst h1
      simp only [Heap.set, if_pos rfl, Heap.get]
      by_cases h2 : a0 = x <;> simp [h2]
    · simp only [Heap.set, if_neg h1, Heap.get]
      by_cases h2 : a0 = x
      · subst h2
        have : ¬ a = a0 := fun hh => h1 hh.symm
        simp [this]
      · simp [h2, ih]

theorem sameCore_refl (b : BlockHeader) : sameCore b b := ⟨rfl, rfl, rfl, rfl⟩

theorem sameCore_trans {b1 b2 b3 : BlockHeader} (h1 : sameCore b1 b2) (h2 : sameCore b2 b3) :
    sameCore b1 b3 := by
  obtain ⟨e1, e2, e3, e4⟩ := h1
  obtain ⟨f1, f2, f3, f4⟩ := h2
  exact ⟨e1.trans f1, e2.trans f2, e3.trans f3, e4.trans f4⟩

/-- A write whose new header keeps the core fields of the overwritten slot
keeps everyone's core fields. -/
theorem sameCore_set (h : Heap) (a : Nat) (nb : BlockHeader) (x : Nat)
    (hc : sameCore nb (h.get a)) :
    sameCore ((h.set a nb).get x) (h.get x) := by
  rw [Heap.get_set]
  split
  · next heq => subst heq; exact hc
  · exact sameCore_refl _

theorem sameTag_refl (b : BlockHeader) : sameTag b b := ⟨rfl, rfl, rfl⟩

theorem sameTag_trans {b1 b2 b3 : BlockHeader} (h1 : sameTag b1 b2) (h2 : sameTag b2 b3) :
    sameTag b1 b3 := by
  obtain ⟨e1, e2, e3⟩ := h1
  obtain ⟨f1, f2, f3⟩ := h2
  exact ⟨e1.trans f1, e2.trans f2, e3.trans f3⟩

theorem sameTag_set (h : Heap) (a : Nat) (nb : BlockHeader) (x : Nat)
    (hc : sameTag nb (h.get a)) :
    sameTag ((h.set a nb).get x) (h.get x) := by
  rw [Heap.get_set]
  split
  · next heq => subst heq; exact hc
  · exact sameTag_refl _

/-- `remove_from_free_list` never touches a header's signature, magic, size
or free flag: its three heap writes only modify `next`/`prev`. -/
theorem remove_frame (pool : MemoryPool) (blk : Option Nat) (li : Nat) (x : Nat) :
    sameCore ((remove_from_free_list pool blk li).heap.get x) (pool.heap.get x) := by
  cases blk with
  | none => exact sameCore_refl _
  | some baddr =>
    unfold remove_from_free_list
    split_ifs with hli
    · exact sameCore_refl _
    · simp only
      have c1 : ∀ y, sameCore
          ((match (pool.heap.get baddr).next with
            | some nx => pool.heap.set nx { pool.heap.get nx with prev := (pool.heap.get baddr).prev }
            | none => pool.heap).get y) (pool.heap.get y) := by
        intro y
        cases (pool.heap.get baddr).next with
        | none => exact sameCore_refl _
        | some nx => exact sameCore_set _ _ _ _ (sameCore_refl _)
      generalize hh1 : (match (pool.heap.get baddr).next with
        | some nx => pool.heap.set nx { pool.heap.get nx with prev := (pool.heap.get baddr).prev }
        | none => pool.heap) = h1 at c1 ⊢
      have c2 : ∀ y, sameCore
          ((match (h1.get baddr).prev with
            | some pv => h1.set pv { h1.get pv with next := (h1.get baddr).next }
            | none => h1).get y) (h1.get y) := by
        intro y
        cases (h1.get baddr).prev with
        | none => exact sameCore_refl _
        | some pv => exact sameCore_set _ _ _ _ (sameCore_refl _)
      generalize hh2 : (match (h1.get baddr).prev with
        | some pv => h1.set pv { h1.get pv with next := (h1.get baddr).next }
        | none => h1) = h2 at c2 ⊢
      have c3 : ∀ y, sameCore
          ((h2.set baddr { h2.get baddr with next := none, prev := none }).get y) (h2.get y) :=
        fun y => sameCore_set _ _ _ _ (sameCore_refl _)
      exact sameCore_trans (sameCore_trans (c3 x) (c2 x)) (c1 x)

theorem remove_scalars (pool : MemoryPool) (blk : Option Nat) (li : Nat) :
    (remove_from_free_list pool blk li).signature = pool.signature ∧
    (remove_from_free_list pool blk li).used_size = pool.used_size ∧
    (remove_from_free_list pool blk li).num_blocks = pool.num_blocks ∧
    (remove_from_free_list pool blk li).num_deallocations = pool.num_deallocations ∧
    (remove_from_free_list pool blk li).alignment = pool.alignment ∧
    (remove_from_free_list pool blk li).total_size = pool.total_size ∧
    (remove_from_free_list pool blk li).first_block = pool.first_block := by
  cases blk with
  | none => exact ⟨rfl, rfl, rfl, rfl, rfl, rfl, rfl⟩
  | some baddr =>
    unfold remove_from_free_list
    split_ifs with hli
    · exact ⟨rfl, rfl, rfl, rfl, rfl, rfl, rfl⟩
    · exact ⟨rfl, rfl, rfl, rfl, rfl, rfl, rfl⟩

/-- `add_to_free_list` also only writes `next`/`prev` fields. -/
theorem add_frame (pool : MemoryPool) (blk : Option Nat) (x : Nat) :
    sameCore ((add_to_free_list pool blk).heap.get x) (pool.heap.get x) := by
  cases blk with
  | none => exact sameCore_refl _
  | some baddr =>
    simp only [add_to_free_list]
    split_ifs with hv
    · cases hl : (pool.free_lists.getD (get_free_list_index (pool.heap.get baddr).size)
          emptyFreeList).head with
      | none =>
        simp only [hl]
        exact sameCore_set _ _ _ _ ⟨rfl, rfl, rfl, rfl⟩
      | some hd =>
        simp only [hl]
        exact sameCore_trans (sameCore_set _ _ _ _ ⟨rfl, rfl, rfl, rfl⟩)
          (sameCore_set _ _ _ _ ⟨rfl, rfl, rfl, rfl⟩)
    · exact sameCore_refl _

theorem add_scalars (pool : MemoryPool) (blk : Option Nat) :
    (add_to_free_list pool blk).signature = pool.signature ∧
    (add_to_free_list pool blk).used_size = pool.used_size ∧
    (add_to_free_list pool blk).num_blocks = pool.num_blocks ∧
    (add_to_free_list pool blk).num_deallocations = pool.num_deallocations ∧
    (add_to_free_list pool blk).alignment = pool.alignment ∧
    (add_to_free_list pool blk).total_size = pool.total_size ∧
    (add_to_free_list pool blk).first_block = pool.first_block := by
  cases blk with
  | none => exact ⟨rfl, rfl, rfl, rfl, rfl, rfl, rfl⟩
  | some baddr =>
    simp only [add_to_free_list]
    split_ifs with hv
    · exact ⟨rfl, rfl, rfl, rfl, rfl, rfl, rfl⟩
    · exact ⟨rfl, rfl, rfl, rfl, rfl, rfl, rfl⟩

theorem tagLe_refl (h : Heap) : tagLe h h := fun _ => ⟨sameTag_refl _, le_rfl⟩

theorem tagLe_trans {a b c : Heap} (h1 : tagLe a b) (h2 : tagLe b c) : tagLe a c := by
  intro x
  obtain ⟨t1, s1⟩ := h1 x
  obtain ⟨t2, s2⟩ := h2 x
  exact ⟨sameTag_trans t2 t1, le_trans s1 s2⟩

/-- A single write that keeps the tag fields of the overwritten slot and does
not shrink it is a `tagLe` step. -/
theorem tagLe_set (h : Heap) (a : Nat) (nb : BlockHeader)
    (hc : sameTag nb (h.get a)) (hs : (h.get a).size ≤ nb.size) : tagLe h (h.set a nb) := by
  intro x
  rw [Heap.get_set]
  split
  · next heq => subst heq; exact ⟨hc, hs⟩
  · exact ⟨sameTag_refl _, le_rfl⟩

/-- Forward coalescing preserves every header's signature, magic and free
flag, never shrinks a size, and leaves all pool scalars except `num_blocks`
(and the heap) unchanged. -/
theorem coalesceForward_frame (pool : MemoryPool) (baddr : Nat) (fuel : Nat) :
    tagLe pool.heap (coalesceForward pool baddr fuel).heap ∧
    (coalesceForward pool baddr fuel).signature = pool.signature ∧
    (coalesceForward pool baddr fuel).used_size = pool.used_size ∧
    (coalesceForward pool baddr fuel).num_deallocations = pool.num_deallocations ∧
    (coalesceForward pool baddr fuel).first_block = pool.first_block ∧
    (coalesceForward pool baddr fuel).free_lists = pool.free_lists := by
  induction fuel generalizing pool with
  | zero => exact ⟨tagLe_refl _, rfl, rfl, rfl, rfl, rfl⟩
  | succ f ih =>
    simp only [coalesceForward]
    cases hn : (pool.heap.get baddr).next with
    | none => exact ⟨tagLe_refl _, rfl, rfl, rfl, rfl, rfl⟩
    | some nx =>
      simp only []
      cases hm : (pool.heap.get nx).next with
      | none =>
        split_ifs with h1 h2
        · simp only []
          refine ⟨tagLe_trans ?_ (ih _).1, (ih _).2.1, (ih _).2.2.1, (ih _).2.2.2.1,
            (ih _).2.2.2.2.1, (ih _).2.2.2.2.2⟩
          refine tagLe_set _ _ _ ?_ ?_
          · exact ⟨rfl, rfl, rfl⟩
          · exact le_trans (Nat.le_add_right _ _) (Nat.le_add_right _ _)
        · exact ⟨tagLe_refl _, rfl, rfl, rfl, rfl, rfl⟩
        · exact ⟨tagLe_refl _, rfl, rfl, rfl, rfl, rfl⟩
      | some nn =>
        split_ifs with h1 h2
        · simp only []
          refine ⟨tagLe_trans ?_ (ih _).1, (ih _).2.1, (ih _).2.2.1, (ih _).2.2.2.1,
            (ih _).2.2.2.2.1, (ih _).2.2.2.2.2⟩
          refine tagLe_trans (tagLe_set _ _ _ ?_ ?_) (tagLe_set _ _ _ ?_ ?_)
          · exact ⟨rfl, rfl, rfl⟩
          · exact le_trans (Nat.le_add_right _ _) (Nat.le_add_right _ _)
          · exact ⟨rfl, rfl, rfl⟩
          · exact le_rfl
        · exact ⟨tagLe_refl _, rfl, rfl, rfl, rfl, rfl⟩
        · exact ⟨tagLe_refl _, rfl, rfl, rfl, rfl, rfl⟩

/-- Backward coalescing: same frame facts as forward. -/
theorem coalesceBackward_frame (pool : MemoryPool) (baddr : Nat) (fuel : Nat) :
    tagLe pool.heap (coalesceBackward pool baddr fuel).1.heap ∧
    (coalesceBackward pool baddr fuel).1.signature = pool.signature ∧
    (coalesceBackward pool baddr fuel).1.used_size = pool.used_size ∧
    (coalesceBackward pool baddr fuel).1.num_deallocations = pool.num_deallocations ∧
    (coalesceBackward pool baddr fuel).1.first_block = pool.first_block ∧
    (coalesceBackward pool baddr fuel).1.free_lists = pool.free_lists := by
  induction fuel generalizing pool baddr with
  | zero => exact ⟨tagLe_refl _, rfl, rfl, rfl, rfl, rfl⟩
  | succ f ih =>
    simp only [coalesceBackward]
    cases hn : (pool.heap.get baddr).prev with
    | none => exact ⟨tagLe_refl _, rfl, rfl, rfl, rfl, rfl⟩
    | some pv =>
      simp only []
      cases hm : (pool.heap.get baddr).next with
      | none =>
        split_ifs with h1 h2
        · simp only []
          refine ⟨tagLe_trans ?_ (ih _ _).1, (ih _ _).2.1, (ih _ _).2.2.1, (ih _ _).2.2.2.1,
            (ih _ _).2.2.2.2.1, (ih _ _).2.2.2.2.2⟩
          refine tagLe_set _ _ _ ?_ ?_
          · exact ⟨rfl, rfl, rfl⟩
          · exact le_trans (Nat.le_add_right _ _) (Nat.le_add_right _ _)
        · exact ⟨tagLe_refl _, rfl, rfl, rfl, rfl, rfl⟩
        · exact ⟨tagLe_refl _, rfl, rfl, rfl, rfl, rfl⟩
      | some nn =>
        split_ifs with h1 h2
        · simp only []
          refine ⟨tagLe_trans ?_ (ih _ _).1, (ih _ _).2.1, (ih _ _).2.2.1, (ih _ _).2.2.2.1,
            (ih _ _).2.2.2.2.1, (ih _ _).2.2.2.2.2⟩
          refine tagLe_trans (tagLe_set _ _ _ ?_ ?_) (tagLe_set _ _ _ ?_ ?_)
          · exact ⟨rfl, rfl, rfl⟩
          · exact le_trans (Nat.le_add_right _ _) (Nat.le_add_right _ _)
          · exact ⟨rfl, rfl, rfl⟩
          · exact le_rfl
        · exact ⟨tagLe_refl _, rfl, rfl, rfl, rfl, rfl⟩
        · exact ⟨tagLe_refl _, rfl, rfl, rfl, rfl, rfl⟩

/-- `coalesce_blocks` frame: tag fields and size monotonicity everywhere,
plus the untouched pool scalars. -/
theorem coalesce_frame (pool : MemoryPool) (blk : Option Nat) :
    tagLe pool.heap (coalesce_blocks pool blk).1.heap ∧
    (coalesce_blocks pool blk).1.signature = pool.signature ∧
    (coalesce_blocks pool blk).1.used_size = pool.used_size ∧
    (coalesce_blocks pool blk).1.num_deallocations = pool.num_deallocations := by
  cases blk with
  | none => exact ⟨tagLe_refl _, rfl, rfl, rfl⟩
  | some baddr =>
    simp only [coalesce_blocks]
    split_ifs with hg
    · exact ⟨tagLe_refl _, rfl, rfl, rfl⟩
    · refine ⟨tagLe_trans (coalesceForward_frame pool baddr _).1
        (coalesceBackward_frame _ baddr _).1, ?_, ?_, ?_⟩
      · exact (coalesceBackward_frame _ baddr _).2.1.trans
          (coalesceForward_frame pool baddr _).2.1
      · exact (coalesceBackward_frame _ baddr _).2.2.1.trans
          (coalesceForward_frame pool baddr _).2.2.1
      · exact (coalesceBackward_frame _ baddr _).2.2.2.1.trans
          (coalesceForward_frame pool baddr _).2.2.2.1

/-- The bucket walk only ever returns its incoming candidate or an eligible
block. -/
theorem searchList_sound (heap : Heap) (al : Nat) (cur best : Option Nat) (fuel : Nat) :
    searchList heap al cur best fuel = best ∨
      ∃ a, searchList heap al cur best fuel = some a ∧ eligible heap al a = true := by
  induction fuel generalizing cur best with
  | zero => exact Or.inl rfl
  | succ f ih =>
    cases cur with
    | none => exact Or.inl rfl
    | some a =>
      simp only [searchList]
      by_cases he : eligible heap al a = true
      · rw [if_pos he]
        split_ifs with hb hp
        · exact Or.inr ⟨a, rfl, he⟩
        · rcases ih (heap.get a).next (some a) with h | ⟨a', ha', he'⟩
          · exact Or.inr ⟨a, h, he⟩
          · exact Or.inr ⟨a', ha', he'⟩
        · exact ih _ _
      · rw [if_neg he]
        exact ih _ _

/-- Same soundness fact for the outer bucket loop. -/
theorem searchFromAux_sound (pool : MemoryPool) (al : Nat) (fuel i : Nat) (best : Option Nat)
    (idx : Nat) :
    (searchFromAux pool al fuel i best idx).1 = best ∨
      ∃ a, (searchFromAux pool al fuel i best idx).1 = some a ∧
        eligible pool.heap al a = true := by
  induction fuel generalizing i best idx with
  | zero => exact Or.inl rfl
  | succ f ih =>
    simp only [searchFromAux]
    by_cases hi : i < MAX_FREE_LISTS
    · rw [if_pos hi]
      rcases searchList_sound pool.heap al (pool.free_lists.getD i emptyFreeList).head best
        (pool.heap.length + 1) with hb | ⟨a, ha, he⟩
      · rw [hb]
        by_cases hp : perfectFit pool.heap al best = true
        · rw [if_pos hp]
          exact Or.inl rfl
        · rw [if_neg hp]
          exact ih _ _ _
      · rw [ha]
        by_cases hp : perfectFit pool.heap al (some a) = true
        · rw [if_pos hp]
          exact Or.inr ⟨a, rfl, he⟩
        · rw [if_neg hp]
          rcases ih (i + 1) (some a) (if some a = best then idx else i) with h2 | ⟨a2, ha2, he2⟩
          · exact Or.inr ⟨a, h2, he⟩
          · exact Or.inr ⟨a2, ha2, he2⟩
    · rw [if_neg hi]
      exact Or.inl rfl

/-- The bucket index reported by the search stays below `MAX_FREE_LISTS`. -/
theorem searchFromAux_idx_lt (pool : MemoryPool) (al : Nat) (fuel i : Nat) (best : Option Nat)
    (idx : Nat) (hidx : idx < MAX_FREE_LISTS) :
    (searchFromAux pool al fuel i best idx).2 < MAX_FREE_LISTS := by
  induction fuel generalizing i best idx with
  | zero => exact hidx
  | succ f ih =>
    simp only [searchFromAux]
    by_cases hi : i < MAX_FREE_LISTS
    · rw [if_pos hi]
      by_cases hp : perfectFit pool.heap al (searchList pool.heap al
          (pool.free_lists.getD i emptyFreeList).head best (pool.heap.length + 1)) = true
      · rw [if_pos hp]
        show (if searchList pool.heap al (pool.free_lists.getD i emptyFreeList).head best
            (pool.heap.length + 1) = best then idx else i) < MAX_FREE_LISTS
        split_ifs with hsame
        · exact hidx
        · exact hi
      · rw [if_neg hp]
        refine ih (i + 1) _ _ ?_
        split_ifs with hsame
        · exact hidx
        · exact hi
    · rw [if_neg hi]
      exact hidx

/-- A successful search yields an eligible block and a valid bucket index. -/
theorem searchFrom_some_eligible (pool : MemoryPool) (al : Nat) (c : Nat) (baddr idx : Nat)
    (h : searchFrom pool al c none 0 = (some baddr, idx)) :
    eligible pool.heap al baddr = true ∧ idx < MAX_FREE_LISTS := by
  constructor
  · rcases searchFromAux_sound pool al (MAX_FREE_LISTS - c) c none 0 with h2 | ⟨a, ha, he⟩
    · rw [searchFrom] at h
      rw [h] at h2
      simp at h2
    · rw [searchFrom] at h
      rw [h] at ha
      simp only at ha
      obtain rfl : a = baddr := by
        have := ha.symm
        injection this
      exact he
  · have := searchFromAux_idx_lt pool al (MAX_FREE_LISTS - c) c none 0 (by decide)
    rw [searchFrom] at h
    rw [h] at this
    exact this

/-- After `remove_from_free_list` the removed block's own links are zeroed
(the body's final write). -/
theorem remove_next_prev (pool : MemoryPool) (baddr li : Nat) (hli : li < MAX_FREE_LISTS) :
    ((remove_from_free_list pool (some baddr) li).heap.get baddr).next = none ∧
    ((remove_from_free_list pool (some baddr) li).heap.get baddr).prev = none := by
  simp only [remove_from_free_list]
  rw [if_neg (show ¬ MAX_FREE_LISTS ≤ li by omega)]
  constructor <;> simp [Heap.get_set]

/-- The two no-split paths of `split_block` leave the pool untouched. -/
theorem split_block_none (pool : MemoryPool) (blk : Option Nat) (r : Nat)
    (h : (split_block pool blk r).2 = none) : (split_block pool blk r).1 = pool := by
  cases blk with
  | none => rfl
  | some baddr =>
    simp only [split_block] at h ⊢
    split_ifs at h ⊢ with h1 h2
    all_goals rfl

/-- A successful split of a block with no chain successor (the state in which
`memory_pool_alloc` always calls it, right after unlinking): the block keeps
its tag fields, its size becomes the re-aligned request, its `next` points at
the new tail, and the pool scalars move as in the C code. -/
theorem split_block_some (pool : MemoryPool) (baddr r : Nat) (pool2 : MemoryPool) (naddr : Nat)
    (hbn : (pool.heap.get baddr).next = none)
    (h : split_block pool (some baddr) r = (pool2, some naddr)) :
    pool2.heap.get baddr =
      { pool.heap.get baddr with
        size := align_size r pool.alignment
        next := some naddr } ∧
    pool2.signature = pool.signature ∧
    pool2.used_size = pool.used_size ∧
    pool2.num_blocks = pool.num_blocks + 1 ∧
    pool2.num_deallocations = pool.num_deallocations ∧
    pool2.first_block = pool.first_block := by
  have h48 : (0 : Nat) < headerSize := by decide
  have hne : ¬ (baddr + headerSize + align_size r pool.alignment = baddr) := by omega
  simp only [split_block] at h
  split_ifs at h with h1 h2
  · simp at h
  · rw [Prod.mk.injEq] at h
    obtain ⟨hp, hn⟩ := h
    obtain rfl : baddr + headerSize + align_size r pool.alignment = naddr := by
      injection hn
    subst hp
    refine ⟨?_, rfl, rfl, rfl, rfl, rfl⟩
    simp [Heap.get_set, hne, hbn]
  · simp at h

theorem allocMark_get (q : MemoryPool) (baddr : Nat) :
    (allocMark q baddr).heap.get baddr = { q.heap.get baddr with is_free := false } := by
  simp [allocMark, Heap.get_set]

theorem allocMark_scalars (q : MemoryPool) (baddr : Nat) :
    (allocMark q baddr).signature = q.signature ∧
    (allocMark q baddr).used_size = q.used_size ∧
    (allocMark q baddr).num_deallocations = q.num_deallocations ∧
    (allocMark q baddr).num_blocks = q.num_blocks := ⟨rfl, rfl, rfl, rfl⟩

theorem allocStats_fields (q : MemoryPool) (baddr : Nat) :
    (allocStats q baddr).heap = q.heap ∧
    (allocStats q baddr).used_size = q.used_size + (q.heap.get baddr).size ∧
    (allocStats q baddr).signature = q.signature ∧
    (allocStats q baddr).num_deallocations = q.num_deallocations ∧
    (allocStats q baddr).num_blocks = q.num_blocks := by
  simp only [allocStats]
  split_ifs with hpk <;> exact ⟨rfl, rfl, rfl, rfl, rfl⟩

/-- What the post-search mutation sequence of `memory_pool_alloc` guarantees
about the chosen block and the pool bookkeeping. -/
theorem allocCore_success (pool : MemoryPool) (baddr bestIdx aligned : Nat)
    (hidx : bestIdx < MAX_FREE_LISTS) :
    (allocCore pool baddr bestIdx aligned).signature = pool.signature ∧
    ((allocCore pool baddr bestIdx aligned).heap.get baddr).signature
      = (pool.heap.get baddr).signature ∧
    ((allocCore pool baddr bestIdx aligned).heap.get baddr).magic
      = (pool.heap.get baddr).magic ∧
    ((allocCore pool baddr bestIdx aligned).heap.get baddr).is_free = false ∧
    (allocCore pool baddr bestIdx aligned).used_size
      = pool.used_size + ((allocCore pool baddr bestIdx aligned).heap.get baddr).size ∧
    (allocCore pool baddr bestIdx aligned).num_deallocations = pool.num_deallocations ∧
    ((allocCore pool baddr bestIdx aligned).num_blocks = pool.num_blocks →
      ((allocCore pool baddr bestIdx aligned).heap.get baddr).next = none ∧
      ((allocCore pool baddr bestIdx aligned).heap.get baddr).prev = none) := by
  obtain ⟨rs, ru, rb, rd, ra, rt, rf⟩ :=
    remove_scalars pool (some baddr) bestIdx
  obtain ⟨rc1, rc2, rc3, rc4⟩ := remove_frame pool (some baddr) bestIdx baddr
  obtain ⟨rn, rp⟩ := remove_next_prev pool baddr bestIdx hidx
  simp only [allocCore]
  rcases hsp : (split_block (remove_from_free_list pool (some baddr) bestIdx) (some baddr)
      aligned).2 with _ | s
  · simp only []
    rw [split_block_none _ _ _ hsp]
    obtain ⟨mk1, mk2, mk3, mk4⟩ :=
      allocMark_scalars (remove_from_free_list pool (some baddr) bestIdx) baddr
    obtain ⟨sh, su, ss, sd, sb⟩ :=
      allocStats_fields (allocMark (remove_from_free_list pool (some baddr) bestIdx) baddr) baddr
    rw [sh, allocMark_get]
    refine ⟨?_, rc1, rc2, rfl, ?_, ?_, ?_⟩
    · rw [ss, mk1, rs]
    · rw [su, allocMark_get]
      simp only []
      rw [mk2, ru]
    · rw [sd, mk3, rd]
    · intro hnb
      exact ⟨rn, rp⟩
  · have hsplit : split_block (remove_from_free_list pool (some baddr) bestIdx) (some baddr)
        aligned
        = ((split_block (remove_from_free_list pool (some baddr) bestIdx) (some baddr)
            aligned).1, some s) := by
      rw [← hsp]
    obtain ⟨pg, ps, pu, pb, pd, pf⟩ :=
      split_block_some (remove_from_free_list pool (some baddr) bestIdx) baddr aligned _ s rn
        hsplit
    obtain ⟨ec1, ec2, ec3, ec4⟩ := add_frame (split_block (remove_from_free_list pool
        (some baddr) bestIdx) (some baddr) aligned).1 (some s) baddr
    obtain ⟨as1, au, ab, ad, aa, at1, af⟩ :=
      add_scalars (split_block (remove_from_free_list pool (some baddr) bestIdx) (some baddr)
        aligned).1 (some s)
    obtain ⟨mk1, mk2, mk3, mk4⟩ :=
      allocMark_scalars (add_to_free_list (split_block (remove_from_free_list pool (some baddr)
        bestIdx) (some baddr) aligned).1 (some s)) baddr
    obtain ⟨sh, su, ss, sd, sb⟩ := allocStats_fields
      (allocMark (add_to_free_list (split_block (remove_from_free_list pool (some baddr)
        bestIdx) (some baddr) aligned).1 (some s)) baddr) baddr
    rw [sh, allocMark_get]
    refine ⟨?_, ?_, ?_, rfl, ?_, ?_, ?_⟩
    · rw [ss, mk1, as1, ps, rs]
    · rw [ec1, pg]
      exact rc1
    · rw [ec2, pg]
      exact rc2
    · rw [su, allocMark_get]
      simp only []
      rw [mk2, au, pu, ru]
    · rw [sd, mk3, ad, pd, rd]
    · intro hnb
      rw [sb, mk4, ab, pb, rb] at hnb
      exact ((by omega : False)).elim

/-- What a successful `memory_pool_alloc` guarantees: the returned payload
sits `headerSize` past a block whose header is validly signed and marked in
use, `used_size` grew by exactly that block's (current) size, the
deallocation counter did not move, and if no split happened (observable as an
unchanged block count) the block's `next`/`prev` links are null. -/
theorem alloc_success (pool : MemoryPool) (n : Nat) (pool1 : MemoryPool) (p : Nat)
    (h : memory_pool_alloc pool n = (pool1, some p)) :
    pool.signature = POOL_SIGNATURE ∧
    pool1.signature = POOL_SIGNATURE ∧
    (pool1.heap.get (p - headerSize)).signature = BLOCK_SIGNATURE ∧
    (pool1.heap.get (p - headerSize)).magic = BLOCK_SIGNATURE ∧
    (pool1.heap.get (p - headerSize)).is_free = false ∧
    pool1.used_size = pool.used_size + (pool1.heap.get (p - headerSize)).size ∧
    pool1.num_deallocations = pool.num_deallocations ∧
    (pool1.num_blocks = pool.num_blocks →
      (pool1.heap.get (p - headerSize)).next = none ∧
      (pool1.heap.get (p - headerSize)).prev = none) := by
  simp only [memory_pool_alloc] at h
  split_ifs at h with hc1 hc2
  · simp at h
  · simp at h
  rcases hs : searchFrom pool (align_size n pool.alignment)
      (get_free_list_index (align_size n pool.alignment)) none 0 with ⟨ob, idx⟩
  rw [hs] at h
  cases ob with
  | none => simp at h
  | some baddr =>
    simp only [] at h
    rw [Prod.mk.injEq] at h
    obtain ⟨hp1, hp2⟩ := h
    rw [Option.some.injEq] at hp2
    subst hp2
    subst hp1
    push_neg at hc1
    obtain ⟨he, hlt⟩ := searchFrom_some_eligible pool _ _ baddr idx hs
    simp only [eligible, validate_block, Bool.and_eq_true, beq_iff_eq,
      decide_eq_true_eq] at he
    obtain ⟨⟨⟨⟨hsig, hmag⟩, hpos⟩, hfree⟩, hge⟩ := he
    have hpb : baddr + headerSize - headerSize = baddr := Nat.add_sub_cancel baddr headerSize
    rw [hpb]
    obtain ⟨g1, g2, g3, g4, g5, g6, g7⟩ :=
      allocCore_success pool baddr idx (align_size n pool.alignment) hlt
    exact ⟨hc1.1, g1.trans hc1.1, g2.trans hsig, g3.trans hmag, g4, g5, g6, g7⟩

theorem get_set_self (h : Heap) (a : Nat) (nb : BlockHeader) : (h.set a nb).get a = nb := by
  rw [Heap.get_set, if_pos rfl]

/-- What `freeCore` (the successful path of `memory_pool_free`) does to the
statistics and to the freed block's header: the size is subtracted first, the
deallocation counter moves once, and the header stays validly signed, marked
free, with a size that only coalescing can grow. -/
theorem freeCore_facts (pool : MemoryPool) (baddr : Nat) :
    (freeCore pool baddr).used_size = pool.used_size - (pool.heap.get baddr).size ∧
    (freeCore pool baddr).num_deallocations = pool.num_deallocations + 1 ∧
    (freeCore pool baddr).signature = pool.signature ∧
    ((freeCore pool baddr).heap.get baddr).signature = (pool.heap.get baddr).signature ∧
    ((freeCore pool baddr).heap.get baddr).magic = (pool.heap.get baddr).magic ∧
    ((freeCore pool baddr).heap.get baddr).is_free = true ∧
    (pool.heap.get baddr).size ≤ ((freeCore pool baddr).heap.get baddr).size := by
  simp only [freeCore]
  refine ⟨?_, ?_, ?_, ?_, ?_, ?_, ?_⟩
  · rw [(add_scalars _ _).2.1, (coalesce_frame _ _).2.2.1]
  · rw [(add_scalars _ _).2.2.2.1, (coalesce_frame _ _).2.2.2]
  · rw [(add_scalars _ _).1, (coalesce_frame _ _).2.1]
  · refine ((add_frame _ _ _).1).trans ((((coalesce_frame _ _).1 baddr).1.1).trans ?_)
    rw [get_set_self]
  · refine ((add_frame _ _ _).2.1).trans ((((coalesce_frame _ _).1 baddr).1.2.1).trans ?_)
    rw [get_set_self]
  · refine ((add_frame _ _ _).2.2.2).trans ((((coalesce_frame _ _).1 baddr).1.2.2).trans ?_)
    rw [get_set_self]
  · refine le_trans (le_trans (le_of_eq ?_) (((coalesce_frame _ _).1 baddr).2))
      (le_of_eq ((add_frame _ _ _).2.2.1).symm)
    rw [get_set_self]

/-- C1 (amended): freeing a payload immediately after the `alloc` that
returned it always restores `used_size` to its pre-alloc value, in every
arena state in which the `alloc` succeeds (the validate clause of the
original claim is dropped, as forced by `c1_roundtrip_validate_fails`).
`free` subtracts exactly the size `alloc` just added; in the degenerate case
where the allocated block has size 0 (so that nothing was added), `free`
rejects the header as corrupt and changes nothing. -/
theorem c1_alloc_free_restores_used (pool : MemoryPool) (n : Nat) (pool1 : MemoryPool) (p : Nat)
    (h : memory_pool_alloc pool n = (pool1, some p)) :
    (memory_pool_free pool1 (some p)).1.used_size = pool.used_size := by
  obtain ⟨hps, hps1, hsig, hmag, hfr, hused, hde, hnb⟩ := alloc_success pool n pool1 p h
  simp only [memory_pool_free]
  rw [if_neg (not_ne_iff.mpr hps1)]
  by_cases hv : validate_block pool1.heap (some (p - headerSize)) = true
  · rw [if_neg (not_not.mpr hv), if_neg (by simp [hfr])]
    simp only []
    rw [(freeCore_facts _ _).1, hused]
    exact Nat.add_sub_cancel _ _
  · rw [if_pos hv]
    simp only []
    rw [hused]
    simp only [validate_block, hsig, hmag, Bool.and_eq_true, beq_iff_eq,
      decide_eq_true_eq, not_and, not_lt] at hv
    have hz : (pool1.heap.get (p - headerSize)).size ≤ 0 := hv ⟨trivial, trivial⟩
    omega

/-- C1 (amended), witness: in the fresh arena, `alloc(100)` returns payload
offset 48 and the immediate `free` brings `used_size` back to 0. -/
theorem c1_alloc_free_restores_used_holds :
    memory_pool_alloc pool0 100 = ((memory_pool_alloc pool0 100).1, some 48) ∧
    (memory_pool_free (memory_pool_alloc pool0 100).1 (some 48)).1.used_size
      = pool0.used_size :=
  ⟨by decide, c1_alloc_free_restores_used pool0 100 (memory_pool_alloc pool0 100).1 48
    (by decide)⟩

/-- C8: once a `free` of a payload returned by `alloc` succeeded, a second
`free` of the same payload is detected as a double free and leaves the arena
state completely unchanged; the deallocation counter moves exactly once
across the two calls. -/
theorem c8_double_free_detected (pool : MemoryPool) (n : Nat) (pool1 pool2 : MemoryPool)
    (p : Nat)
    (_halloc : memory_pool_alloc pool n = (pool1, some p))
    (hfree : memory_pool_free pool1 (some p) = (pool2, FreeResult.ok)) :
    memory_pool_free pool2 (some p) = (pool2, FreeResult.doubleFree) ∧
    pool2.num_deallocations = pool1.num_deallocations + 1 := by
  simp only [memory_pool_free] at hfree
  by_cases hs1 : pool1.signature ≠ POOL_SIGNATURE
  · rw [if_pos hs1] at hfree
    simp at hfree
  · rw [if_neg hs1] at hfree
    push_neg at hs1
    by_cases hv : validate_block pool1.heap (some (p - headerSize)) = true
    · rw [if_neg (not_not.mpr hv)] at hfree
      by_cases hf : (pool1.heap.get (p - headerSize)).is_free = true
      · rw [if_pos hf] at hfree
        simp at hfree
      · rw [if_neg hf] at hfree
        rw [Prod.mk.injEq] at hfree
        obtain ⟨hp2, _⟩ := hfree
        subst hp2
        simp only [validate_block, Bool.and_eq_true, beq_iff_eq, decide_eq_true_eq] at hv
        obtain ⟨⟨hvs, hvm⟩, hvp⟩ := hv
        obtain ⟨fu, fd, fs, fsig, fmag, ffree, fsize⟩ := freeCore_facts pool1 (p - headerSize)
        constructor
        · simp only [memory_pool_free]
          rw [if_neg (not_ne_iff.mpr (fs.trans hs1))]
          rw [if_neg (not_not.mpr (show validate_block (freeCore pool1 (p - headerSize)).heap
              (some (p - headerSize)) = true by
            simp only [validate_block, Bool.and_eq_true, beq_iff_eq, decide_eq_true_eq]
            exact ⟨⟨fsig.trans hvs, fmag.trans hvm⟩, lt_of_lt_of_le hvp fsize⟩))]
          rw [if_pos ffree]
        · exact fd
    · rw [if_pos hv] at hfree
      simp at hfree

/-- C8, witness: in the fresh arena, `alloc(32)` then `free`; the second
`free` of the same payload reports a double free, changes nothing, and the
deallocation counter moved exactly once. -/
theorem c8_double_free_detected_holds :
    memory_pool_alloc pool0 32 = ((memory_pool_alloc pool0 32).1, some 48) ∧
    memory_pool_free (memory_pool_alloc pool0 32).1 (some 48)
      = ((memory_pool_free (memory_pool_alloc pool0 32).1 (some 48)).1, FreeResult.ok) ∧
    memory_pool_free (memory_pool_free (memory_pool_alloc pool0 32).1 (some 48)).1 (some 48)
      = ((memory_pool_free (memory_pool_alloc pool0 32).1 (some 48)).1,
        FreeResult.doubleFree) ∧
    (memory_pool_free (memory_pool_alloc pool0 32).1 (some 48)).1.num_deallocations
      = (memory_pool_alloc pool0 32).1.num_deallocations + 1 :=
  ⟨by decide, by decide,
    (c8_double_free_detected pool0 32 (memory_pool_alloc pool0 32).1
      (memory_pool_free (memory_pool_alloc pool0 32).1 (some 48)).1 48
      (by decide) (by decide)).1,
    (c8_double_free_detected pool0 32 (memory_pool_alloc pool0 32).1
      (memory_pool_free (memory_pool_alloc pool0 32).1 (some 48)).1 48
      (by decide) (by decide)).2⟩

/-- C9: when `free` is handed an address whose computed header fails
validation (wrong signatures or zero size), it reports corruption and
returns the arena completely unchanged — in particular `used_size` and
`num_deallocations` are untouched. -/
theorem c9_corrupt_free_noop (pool : MemoryPool) (p : Nat)
    (hsig : pool.signature = POOL_SIGNATURE)
    (hbad : validate_block pool.heap (some (p - headerSize)) = false) :
    memory_pool_free pool (some p) = (pool, FreeResult.corruption) := by
  simp only [memory_pool_free]
  rw [if_neg (not_ne_iff.mpr hsig), if_pos (by simp [hbad])]

/-- C9, witness: freeing the address 1000 of the fresh arena, where no header
was ever written (the zero-filled bytes fail the signature check), reports
corruption and leaves the pool untouched. -/
theorem c9_corrupt_free_noop_holds :
    pool0.signature = POOL_SIGNATURE ∧
    validate_block pool0.heap (some (1000 - headerSize)) = false ∧
    memory_pool_free pool0 (some 1000) = (pool0, FreeResult.corruption) :=
  ⟨by decide, by decide, c9_corrupt_free_noop pool0 1000 (by decide) (by decide)⟩

theorem chainWalk_none (heap : Heap) (fuel : Nat) : chainWalk heap none fuel = [] := by
  cases fuel <;> simp [chainWalk]

/-- C10: `remove_from_free_list` zeroes the removed block's `next` and
`prev`; hence after a successful `alloc` in which no split occurred
(observable as an unchanged block count) the allocated block's links are
null and any chain walk that reaches the block stops there. -/
theorem c10_no_split_null_links (pool : MemoryPool) (n : Nat) (pool1 : MemoryPool) (p : Nat)
    (h : memory_pool_alloc pool n = (pool1, some p))
    (hnb : pool1.num_blocks = pool.num_blocks) :
    (pool1.heap.get (p - headerSize)).next = none ∧
    (pool1.heap.get (p - headerSize)).prev = none ∧
    ∀ fuel, chainWalk pool1.heap (some (p - headerSize)) (fuel + 1) = [p - headerSize] := by
  obtain ⟨-, -, -, -, -, -, -, hsplit⟩ := alloc_success pool n pool1 p h
  obtain ⟨hn, hp2⟩ := hsplit hnb
  refine ⟨hn, hp2, fun fuel => ?_⟩
  simp [chainWalk, hn, chainWalk_none]

/-- C10, witness: in the fresh arena, `alloc(4048)` is a perfect fit for the
initial block (no split: the block count stays 1); the allocated block's
links are null and the walk from it is just the block itself. -/
theorem c10_no_split_null_links_holds :
    memory_pool_alloc pool0 4048 = ((memory_pool_alloc pool0 4048).1, some 48) ∧
    (memory_pool_alloc pool0 4048).1.num_blocks = pool0.num_blocks ∧
    ((memory_pool_alloc pool0 4048).1.heap.get (48 - headerSize)).next = none ∧
    ((memory_pool_alloc pool0 4048).1.heap.get (48 - headerSize)).prev = none ∧
    chainWalk (memory_pool_alloc pool0 4048).1.heap (some (48 - headerSize)) 5
      = [48 - headerSize] :=
  ⟨by decide, by decide,
    (c10_no_split_null_links pool0 4048 (memory_pool_alloc pool0 4048).1 48
      (by decide) (by decide)).1,
    (c10_no_split_null_links pool0 4048 (memory_pool_alloc pool0 4048).1 48
      (by decide) (by decide)).2.1,
    (c10_no_split_null_links pool0 4048 (memory_pool_alloc pool0 4048).1 48
      (by decide) (by decide)).2.2 4⟩

theorem flLoopAux_ge (size fuel index threshold : Nat) :
    index ≤ flLoopAux size fuel index threshold := by
  induction fuel generalizing index threshold with
  | zero => exact le_rfl
  | succ f ih =>
    simp only [flLoopAux]
    split_ifs with hc
    · exact le_trans (Nat.le_succ _) (ih _ _)
    · exact le_rfl

theorem flLoopAux_mono (s1 s2 fuel index threshold : Nat) (hs : s1 ≤ s2) :
    flLoopAux s1 fuel index threshold ≤ flLoopAux s2 fuel index threshold := by
  induction fuel generalizing index threshold with
  | zero => exact le_rfl
  | succ f ih =>
    simp only [flLoopAux]
    split_ifs with h1 h2
    · exact ih _ _
    · exact absurd ⟨h1.1, lt_of_lt_of_le h1.2 hs⟩ h2
    · exact le_trans (Nat.le_succ _) (flLoopAux_ge _ _ _ _)
    · exact le_rfl

/-- The size-class function is monotone (spec §4.3), which is what makes
first-bucket best-fit agree with the code's keep-scanning loop. -/
theorem idx_eq_loop (s : Nat) (h : 4096 < s) :
    get_free_list_index s = flLoop s 9 8192 := by
  unfold get_free_list_index
  split_ifs <;> omega

theorem get_free_list_index_le (s : Nat) :
    (s ≤ 16 → get_free_list_index s ≤ 0) ∧ (s ≤ 32 → get_free_list_index s ≤ 1) ∧
    (s ≤ 64 → get_free_list_index s ≤ 2) ∧ (s ≤ 128 → get_free_list_index s ≤ 3) ∧
    (s ≤ 256 → get_free_list_index s ≤ 4) ∧ (s ≤ 512 → get_free_list_index s ≤ 5) ∧
    (s ≤ 1024 → get_free_list_index s ≤ 6) ∧ (s ≤ 2048 → get_free_list_index s ≤ 7) ∧
    (s ≤ 4096 → get_free_list_index s ≤ 8) := by
  unfold get_free_list_index
  split_ifs <;> omega

theorem idx_eq_of_le (s : Nat) :
    (s ≤ 16 → get_free_list_index s = 0) ∧ (16 < s → s ≤ 32 → get_free_list_index s = 1) ∧
    (32 < s → s ≤ 64 → get_free_list_index s = 2) ∧
    (64 < s → s ≤ 128 → get_free_list_index s = 3) ∧
    (128 < s → s ≤ 256 → get_free_list_index s = 4) ∧
    (256 < s → s ≤ 512 → get_free_list_index s = 5) ∧
    (512 < s → s ≤ 1024 → get_free_list_index s = 6) ∧
    (1024 < s → s ≤ 2048 → get_free_list_index s = 7) ∧
    (2048 < s → s ≤ 4096 → get_free_list_index s = 8) := by
  unfold get_free_list_index
  split_ifs <;> omega

/-- The size-class function is monotone (spec §4.3), which is what makes
first-bucket best-fit agree with the code's keep-scanning loop. -/
theorem get_free_list_index_mono (s1 s2 : Nat) (hs : s1 ≤ s2) :
    get_free_list_index s1 ≤ get_free_list_index s2 := by
  obtain ⟨L16, L32, L64, L128, L256, L512, L1024, L2048, L4096⟩ := get_free_list_index_le s1
  obtain ⟨E16, E32, E64, E128, E256, E512, E1024, E2048, E4096⟩ := idx_eq_of_le s2
  by_cases h16 : s2 ≤ 16
  · rw [E16 h16]; exact L16 (le_trans hs h16)
  by_cases h32 : s2 ≤ 32
  · rw [E32 (by omega) h32]; have := L32 (le_trans hs h32); omega
  by_cases h64 : s2 ≤ 64
  · rw [E64 (by omega) h64]; have := L64 (le_trans hs h64); omega
  by_cases h128 : s2 ≤ 128
  · rw [E128 (by omega) h128]; have := L128 (le_trans hs h128); omega
  by_cases h256 : s2 ≤ 256
  · rw [E256 (by omega) h256]; have := L256 (le_trans hs h256); omega
  by_cases h512 : s2 ≤ 512
  · rw [E512 (by omega) h512]; have := L512 (le_trans hs h512); omega
  by_cases h1024 : s2 ≤ 1024
  · rw [E1024 (by omega) h1024]; have := L1024 (le_trans hs h1024); omega
  by_cases h2048 : s2 ≤ 2048
  · rw [E2048 (by omega) h2048]; have := L2048 (le_trans hs h2048); omega
  by_cases h4096 : s2 ≤ 4096
  · rw [E4096 (by omega) h4096]; have := L4096 (le_trans hs h4096); omega
  · rw [idx_eq_loop s2 (by omega)]
    by_cases hA : s1 ≤ 4096
    · have h8 := L4096 hA
      have h9 := flLoopAux_ge s2 MAX_FREE_LISTS 9 8192
      simp only [flLoop]
      omega
    · rw [idx_eq_loop s1 (by omega)]
      simp only [flLoop]
      exact flLoopAux_mono s1 s2 _ _ _ hs

theorem foldBest_cons (heap : Heap) (al : Nat) (x : Nat) (xs : List Nat) (best : Option Nat) :
    foldBest heap al (x :: xs) best = foldBest heap al xs (betterFit heap al best x) := rfl

theorem betterFit_stay (heap : Heap) (al : Nat) (b x : Nat)
    (hno : eligible heap al x = true → ¬ ((heap.get x).size < (heap.get b).size)) :
    betterFit heap al (some b) x = some b := by
  unfold betterFit
  split_ifs with hc
  · rw [Bool.and_eq_true] at hc
    obtain ⟨he, hi⟩ := hc
    simp only [improves, decide_eq_true_eq] at hi
    exact absurd hi (hno he)
  · rfl

/-- No element of a list that cannot strictly improve on the incumbent
changes the fold. -/
theorem foldBest_stay (heap : Heap) (al : Nat) (xs : List Nat) (b : Nat)
    (hno : ∀ x ∈ xs, eligible heap al x = true → ¬ ((heap.get x).size < (heap.get b).size)) :
    foldBest heap al xs (some b) = some b := by
  induction xs with
  | nil => rfl
  | cons x rest ih =>
    rw [foldBest_cons, betterFit_stay heap al b x (hno x (by simp))]
    exact ih fun y hy => hno y (List.mem_cons_of_mem _ hy)

/-- A perfect-fit incumbent can never be replaced: candidates are at least
the request. -/
theorem foldBest_perfect (heap : Heap) (al : Nat) (xs : List Nat) (b : Nat)
    (hb : (heap.get b).size = al) :
    foldBest heap al xs (some b) = some b := by
  refine foldBest_stay heap al xs b fun x hx he => ?_
  simp only [eligible, Bool.and_eq_true, decide_eq_true_eq] at he
  rw [hb]
  exact not_lt.mpr he.2

theorem betterFit_isSome (heap : Heap) (al : Nat) (c x : Nat) :
    ∃ d, betterFit heap al (some c) x = some d := by
  unfold betterFit
  split_ifs with hc
  · exact ⟨x, rfl⟩
  · exact ⟨c, rfl⟩

theorem foldBest_isSome (heap : Heap) (al : Nat) (xs : List Nat) (c : Nat) :
    ∃ d, foldBest heap al xs (some c) = some d := by
  induction xs generalizing c with
  | nil => exact ⟨c, rfl⟩
  | cons x rest ih =>
    obtain ⟨d, hd⟩ := betterFit_isSome heap al c x
    rw [foldBest_cons, hd]
    exact ih d

/-- The fold only ever returns the incumbent or an eligible list element. -/
theorem foldBest_sound (heap : Heap) (al : Nat) (xs : List Nat) (best : Option Nat) :
    foldBest heap al xs best = best ∨
    ∃ b ∈ xs, foldBest heap al xs best = some b ∧ eligible heap al b = true := by
  induction xs generalizing best with
  | nil => exact Or.inl rfl
  | cons x rest ih =>
    rw [foldBest_cons]
    by_cases hbf : betterFit heap al best x = best
    · rw [hbf]
      rcases ih best with h | ⟨b, hb, he⟩
      · exact Or.inl h
      · exact Or.inr ⟨b, List.mem_cons_of_mem _ hb, he⟩
    · have hx : betterFit heap al best x = some x ∧ eligible heap al x = true := by
        unfold betterFit at hbf ⊢
        split_ifs at hbf ⊢ with hc
        · rw [Bool.and_eq_true] at hc
          exact ⟨rfl, hc.1⟩
        · exact absurd rfl hbf
      rw [hx.1]
      rcases ih (some x) with h | ⟨b, hb, he⟩
      · exact Or.inr ⟨x, by simp, h, hx.2⟩
      · exact Or.inr ⟨b, List.mem_cons_of_mem _ hb, he⟩

/-- With an empty incumbent, a bucket with no eligible member contributes
nothing. -/
theorem foldBest_none (heap : Heap) (al : Nat) (xs : List Nat)
    (hno : ∀ x ∈ xs, eligible heap al x = false) :
    foldBest heap al xs none = none := by
  induction xs with
  | nil => rfl
  | cons x rest ih =>
    rw [foldBest_cons]
    have : betterFit heap al none x = none := by
      unfold betterFit
      rw [if_neg]
      simp [hno x (by simp)]
    rw [this]
    exact ih fun y hy => hno y (List.mem_cons_of_mem _ hy)

/-- If the fold over a bucket produced nothing, no member was eligible. -/
theorem foldBest_none_imp (heap : Heap) (al : Nat) (xs : List Nat)
    (h : foldBest heap al xs none = none) :
    ∀ a ∈ xs, eligible heap al a = false := by
  induction xs with
  | nil => exact fun a ha => absurd ha (List.not_mem_nil a)
  | cons x rest ih =>
    rw [foldBest_cons] at h
    cases hex : eligible heap al x with
    | true =>
      exfalso
      have hbx : betterFit heap al none x = some x := by
        unfold betterFit
        rw [if_pos]
        rw [Bool.and_eq_true]
        exact ⟨hex, rfl⟩
      rw [hbx] at h
      obtain ⟨d, hd⟩ := foldBest_isSome heap al rest x
      rw [hd] at h
      exact Option.noConfusion h
    | false =>
      have hbx : betterFit heap al none x = none := by
        unfold betterFit
        rw [if_neg]
        simp [hex]
      rw [hbx] at h
      intro a ha
      rcases List.mem_cons.mp ha with rfl | hmem
      · exact hex
      · exact ih h a hmem

/-- With an empty incumbent, a bucket with an eligible member yields an
eligible member of the bucket. -/
theorem foldBest_hit (heap : Heap) (al : Nat) (xs : List Nat)
    (hyes : ∃ a ∈ xs, eligible heap al a = true) :
    ∃ b ∈ xs, foldBest heap al xs none = some b ∧ eligible heap al b = true := by
  rcases foldBest_sound heap al xs none with h | hb
  · obtain ⟨a, ha, he⟩ := hyes
    rw [foldBest_none_imp heap al xs h a ha] at he
    exact Bool.noConfusion he
  · exact hb

/-- The inner bucket walk computes a left fold of `betterFit` over the bucket
contents: the perfect-fit break is transparent because a perfect incumbent is
never replaced. -/
theorem searchList_foldBest (heap : Heap) (al : Nat) (fuel : Nat) :
    ∀ cur best : Option Nat,
      searchList heap al cur best fuel = foldBest heap al (chainWalk heap cur fuel) best := by
  induction fuel with
  | zero =>
    intro cur best
    cases cur <;> rfl
  | succ f ih =>
    intro cur best
    cases cur with
    | none => rfl
    | some a =>
      simp only [searchList, chainWalk, foldBest_cons]
      by_cases he : eligible heap al a = true
      · by_cases hb : improves heap a best = true
        · have hbf : betterFit heap al best a = some a := by
            unfold betterFit
            rw [if_pos]
            rw [Bool.and_eq_true]
            exact ⟨he, hb⟩
          rw [if_pos he, if_pos hb, hbf]
          by_cases hp : (heap.get a).size = al
          · rw [if_pos hp, foldBest_perfect heap al _ a hp]
          · rw [if_neg hp]
            exact ih _ _
        · have hbf : betterFit heap al best a = best := by
            unfold betterFit
            rw [if_neg]
            simp [hb]
          rw [if_pos he, if_neg hb, hbf]
          exact ih _ _
      · have hbf : betterFit heap al best a = best := by
          unfold betterFit
          rw [if_neg]
          simp [he]
        rw [if_neg he, hbf]
        exact ih _ _

theorem foldBuckets_cons (pool : MemoryPool) (al : Nat) (i : Nat) (is : List Nat)
    (best : Option Nat) :
    foldBuckets pool al (i :: is) best =
      foldBuckets pool al is (foldBest pool.heap al (bucketAddrs pool i) best) := rfl

/-- A perfect-fit incumbent survives any further buckets. -/
theorem foldBuckets_perfect (pool : MemoryPool) (al : Nat) (is : List Nat) (b : Nat)
    (hb : (pool.heap.get b).size = al) :
    foldBuckets pool al is (some b) = some b := by
  induction is with
  | nil => rfl
  | cons i rest ih =>
    rw [foldBuckets_cons, foldBest_perfect pool.heap al _ b hb]
    exact ih

/-- An incumbent no later candidate strictly undercuts survives the bucket
fold. -/
theorem foldBuckets_stable (pool : MemoryPool) (al : Nat) (is : List Nat) (b : Nat)
    (hno : ∀ j ∈ is, ∀ x ∈ bucketAddrs pool j, eligible pool.heap al x = true →
      ¬ ((pool.heap.get x).size < (pool.heap.get b).size)) :
    foldBuckets pool al is (some b) = some b := by
  induction is with
  | nil => rfl
  | cons i rest ih =>
    rw [foldBuckets_cons, foldBest_stay pool.heap al _ b (hno i (by simp))]
    exact ih fun j hj => hno j (List.mem_cons_of_mem _ hj)

/-- The outer search loop computes the bucket fold over the scanned index
range: the perfect-fit break is again transparent. -/
theorem searchFromAux_foldBuckets (pool : MemoryPool) (al : Nat) (fuel : Nat) :
    ∀ (i : Nat) (best : Option Nat) (idx : Nat),
      (searchFromAux pool al fuel i best idx).1 =
        foldBuckets pool al (List.range' i (min fuel (MAX_FREE_LISTS - i))) best := by
  induction fuel with
  | zero =>
    intro i best idx
    rw [Nat.zero_min]
    rfl
  | succ f ih =>
    intro i best idx
    simp only [searchFromAux]
    by_cases hi : i < MAX_FREE_LISTS
    · rw [if_pos hi]
      have h1 : MAX_FREE_LISTS - i = (MAX_FREE_LISTS - (i + 1)) + 1 := by omega
      rw [h1, Nat.succ_min_succ, List.range'_succ, foldBuckets_cons]
      simp only [bucketAddrs]
      rw [← searchList_foldBest pool.heap al (pool.heap.length + 1)]
      generalize searchList pool.heap al
        (pool.free_lists.getD i emptyFreeList).head best (pool.heap.length + 1) = B
      by_cases hp : perfectFit pool.heap al B = true
      · rw [if_pos hp]
        cases B with
        | none => exact absurd hp (by simp [perfectFit])
        | some b =>
          simp only [perfectFit, decide_eq_true_eq] at hp
          exact (foldBuckets_perfect pool al _ b hp).symm
      · rw [if_neg hp]
        exact ih (i + 1) B _
    · rw [if_neg hi]
      have h0 : MAX_FREE_LISTS - i = 0 := by omega
      rw [h0, Nat.min_zero]
      rfl

/-- The doubling loop never pushes the class index past the table bound. -/
theorem flLoopAux_lt (size : Nat) :
    ∀ (fuel index threshold : Nat), index < MAX_FREE_LISTS →
      flLoopAux size fuel index threshold < MAX_FREE_LISTS := by
  intro fuel
  induction fuel with
  | zero =>
    intro index threshold h
    exact h
  | succ f ih =>
    intro index threshold h
    simp only [flLoopAux]
    split_ifs with hc
    · exact ih (index + 1) (threshold * 2) (by omega)
    · exact h

theorem get_free_list_index_lt (s : Nat) : get_free_list_index s < MAX_FREE_LISTS := by
  unfold get_free_list_index
  split_ifs <;> first
    | decide
    | exact flLoopAux_lt s MAX_FREE_LISTS 9 8192 (by decide)

/-- Under correct bucket classification, folding all buckets from `s` up
equals best fit within the first bucket holding any candidate: buckets before
the hit contribute nothing, and by monotonicity of the class function no
later bucket can undercut the hit. -/
theorem foldBuckets_find (pool : MemoryPool) (al : Nat)
    (Hclass : ∀ i, i < MAX_FREE_LISTS → ∀ a ∈ bucketAddrs pool i,
      get_free_list_index ((pool.heap.get a).size) = i) :
    ∀ n s : Nat, s + n ≤ MAX_FREE_LISTS →
      foldBuckets pool al (List.range' s n) none =
        (match (List.range' s n).find?
            (fun i => (bucketAddrs pool i).any (eligible pool.heap al)) with
        | none => none
        | some i => foldBest pool.heap al (bucketAddrs pool i) none) := by
  intro n
  induction n with
  | zero =>
    intro s hs
    rfl
  | succ k ih =>
    intro s hs
    rw [List.range'_succ]
    by_cases hany : (bucketAddrs pool s).any (eligible pool.heap al) = true
    · have hfind : List.find? (fun i => (bucketAddrs pool i).any (eligible pool.heap al))
          (s :: List.range' (s + 1) k) = some s := by
        simp [List.find?_cons_of_pos, hany]
      rw [foldBuckets_cons, hfind]
      have hex : ∃ a ∈ bucketAddrs pool s, eligible pool.heap al a = true := by
        rw [List.any_eq_true] at hany
        obtain ⟨x, hx, hpx⟩ := hany
        exact ⟨x, hx, hpx⟩
      obtain ⟨b, hbmem, hbF, hbe⟩ := foldBest_hit pool.heap al _ hex
      rw [hbF]
      have hstable : foldBuckets pool al (List.range' (s + 1) k) (some b) = some b := by
        refine foldBuckets_stable pool al _ b ?_
        intro j hj x hx hxe hlt
        have hjr := List.mem_range'_1.mp hj
        have hxj := Hclass j (by omega) x hx
        have hbs := Hclass s (by omega) b hbmem
        have hmono := get_free_list_index_mono ((pool.heap.get x).size)
          ((pool.heap.get b).size) (le_of_lt hlt)
        omega
      rw [hstable]
      exact hbF.symm
    · have hfind : List.find? (fun i => (bucketAddrs pool i).any (eligible pool.heap al))
          (s :: List.range' (s + 1) k) =
          List.find? (fun i => (bucketAddrs pool i).any (eligible pool.heap al))
            (List.range' (s + 1) k) := by
        simp [List.find?_cons_of_neg, hany]
      rw [foldBuckets_cons, hfind]
      have hnone : foldBest pool.heap al (bucketAddrs pool s) none = none := by
        refine foldBest_none pool.heap al _ ?_
        intro x hx
        cases hxe : eligible pool.heap al x with
        | false => rfl
        | true => exact absurd (List.any_eq_true.mpr ⟨x, hx, hxe⟩) hany
      rw [hnone]
      exact ih (s + 1) (by omega)

/-- C5 (amended): the search starts at the class of the rounded size and keeps
scanning higher classes unless the running best is a perfect fit, yet —
provided every listed block sits in the bucket of its size class — the block
it returns is exactly the spec's choice: the best fit within the first bucket
from that class upward holding any candidate. -/
theorem searchFrom_refines_specSearch (pool : MemoryPool) (al : Nat)
    (Hclass : ∀ i, i < MAX_FREE_LISTS → ∀ a ∈ bucketAddrs pool i,
      get_free_list_index ((pool.heap.get a).size) = i) :
    (searchFrom pool al (get_free_list_index al) none 0).1 = specSearch pool al := by
  have hc : get_free_list_index al < MAX_FREE_LISTS := get_free_list_index_lt al
  simp only [searchFrom, specSearch]
  rw [searchFromAux_foldBuckets, Nat.min_self]
  exact foldBuckets_find pool al Hclass (MAX_FREE_LISTS - get_free_list_index al)
    (get_free_list_index al) (by omega)

theorem searchFrom_refines_specSearch_holds :
    (∀ i, i < MAX_FREE_LISTS → ∀ a ∈ bucketAddrs pool0 i,
      get_free_list_index ((pool0.heap.get a).size) = i) ∧
    (searchFrom pool0 104 (get_free_list_index 104) none 0).1 = specSearch pool0 104 :=
  ⟨by decide, searchFrom_refines_specSearch pool0 104 (by decide)⟩

theorem Heap.mem_set (h : Heap) (x : Nat) (v : BlockHeader) :
    ∀ e ∈ Heap.set h x v, e.1 = x ∨ e ∈ h := by
  induction h with
  | nil =>
    intro e he
    simp only [Heap.set, List.mem_singleton] at he
    subst he
    exact Or.inl rfl
  | cons hd t ih =>
    intro e he
    rcases hd with ⟨a, b⟩
    simp only [Heap.set] at he
    by_cases hax : a = x
    · rw [if_pos hax] at he
      rcases List.mem_cons.mp he with rfl | hm
      · exact Or.inl rfl
      · exact Or.inr (List.mem_cons_of_mem _ hm)
    · rw [if_neg hax] at he
      rcases List.mem_cons.mp he with rfl | hm
      · exact Or.inr (List.mem_cons_self _ _)
      · rcases ih e hm with h1 | h2
        · exact Or.inl h1
        · exact Or.inr (List.mem_cons_of_mem _ h2)

theorem Heap.get_not_mem (h : Heap) (x : Nat) (hx : ∀ e ∈ h, e.1 ≠ x) :
    Heap.get h x = zeroHeader := by
  induction h with
  | nil => rfl
  | cons hd t ih =>
    rcases hd with ⟨a, b⟩
    simp only [Heap.get]
    rw [if_neg (hx (a, b) (List.mem_cons_self _ _))]
    exact ih fun e he => hx e (List.mem_cons_of_mem _ he)

/-- Writing an aligned offset with aligned links preserves the heap alignment
invariant. -/
theorem HDiv.set (a : Nat) (h : Heap) (x : Nat) (nb : BlockHeader) (hH : HDiv a h)
    (hx : a ∣ x) (hn : optDiv a nb.next) (hp : optDiv a nb.prev) :
    HDiv a (Heap.set h x nb) := by
  obtain ⟨hK, hN⟩ := hH
  constructor
  · intro e he
    rcases Heap.mem_set h x nb e he with h1 | h2
    · rw [h1]
      exact hx
    · exact hK e h2
  · intro y hy
    rw [Heap.get_set]
    split_ifs with hxy
    · exact ⟨hn, hp⟩
    · exact hN y hy

/-- Offsets that are not multiples of the alignment never hold a valid
header: all written offsets are multiples, and unwritten memory reads as
`zeroHeader`. -/
theorem validate_unaligned (a : Nat) (h : Heap) (x : Nat) (hK : ∀ e ∈ h, a ∣ e.1)
    (hx : ¬ a ∣ x) : validate_block h (some x) = false := by
  have hz : Heap.get h x = zeroHeader := by
    refine Heap.get_not_mem h x ?_
    intro e he hex
    exact hx (hex ▸ hK e he)
  simp only [validate_block, hz]
  decide

theorem getD_set_cases (ls : List FreeList) (li i : Nat) (l' : FreeList) :
    (ls.set li l').getD i emptyFreeList = l' ∨
    (ls.set li l').getD i emptyFreeList = ls.getD i emptyFreeList := by
  by_cases hi : li = i
  · subst hi
    by_cases hlen : li < ls.length
    · left
      rw [List.getD_eq_getElem?_getD, List.getElem?_set_self hlen]
      rfl
    · right
      rw [List.set_eq_of_length_le (Nat.le_of_not_lt hlen)]
  · right
    rw [List.getD_eq_getElem?_getD, List.getElem?_set_ne hi, ← List.getD_eq_getElem?_getD]

/-- Bucket-head alignment survives replacing one bucket by one with an
aligned head. -/
theorem buckets_set (a : Nat) (ls : List FreeList) (li : Nat) (l' : FreeList)
    (hB : ∀ i : Nat, optDiv a (ls.getD i emptyFreeList).head) (hl : optDiv a l'.head) :
    ∀ i : Nat, optDiv a ((ls.set li l').getD i emptyFreeList).head := by
  intro i
  rcases getD_set_cases ls li i l' with h | h
  · rw [h]
    exact hl
  · rw [h]
    exact hB i

/-- Every offset on a chain walked from an aligned start through aligned
links is aligned. -/
theorem chainWalk_div (a : Nat) (h : Heap)
    (hN : ∀ x : Nat, a ∣ x → optDiv a (Heap.get h x).next ∧ optDiv a (Heap.get h x).prev) :
    ∀ (fuel : Nat) (cur : Option Nat), optDiv a cur → ∀ y ∈ chainWalk h cur fuel, a ∣ y := by
  intro fuel
  induction fuel with
  | zero =>
    intro cur hc y hy
    simp [chainWalk] at hy
  | succ f ih =>
    intro cur hc y hy
    cases cur with
    | none => simp [chainWalk] at hy
    | some c =>
      simp only [chainWalk, List.mem_cons] at hy
      rcases hy with rfl | hy
      · exact hc
      · exact ih (Heap.get h c).next (hN c hc).1 y hy

theorem land_dvd_pow2 (x m k : Nat) (hm : m % 2 ^ k = 0) : 2 ^ k ∣ Nat.land x m := by
  have h1 : Nat.land x m % 2 ^ k = (x &&& m) &&& (2 ^ k - 1) :=
    (Nat.and_pow_two_sub_one_eq_mod (x &&& m) k).symm
  rw [Nat.and_assoc, Nat.and_pow_two_sub_one_eq_mod m k, hm, Nat.and_zero] at h1
  exact Nat.dvd_of_mod_eq_zero h1

/-- `align_size` rounds to a multiple of the alignment for the power-of-two
alignments 8 and 16 (the ones the amended C6 claim is about). -/
theorem align_size_dvd (s a : Nat) (ha : a = 8 ∨ a = 16) : a ∣ align_size s a := by
  rcases ha with rfl | rfl
  · have h := land_dvd_pow2 ((s + (8 + U64 - 1) % U64) % U64)
      (U64 - 1 - (8 + U64 - 1) % U64) 3 (by decide)
    simpa [align_size] using h
  · have h := land_dvd_pow2 ((s + (16 + U64 - 1) % U64) % U64)
      (U64 - 1 - (16 + U64 - 1) % U64) 4 (by decide)
    simpa [align_size] using h

theorem HDiv.set_keepN (a : Nat) (h : Heap) (x : Nat) (nb : BlockHeader) (hH : HDiv a h)
    (hx : a ∣ x) (hn : nb.next = (Heap.get h x).next) (hp : optDiv a nb.prev) :
    HDiv a (Heap.set h x nb) := by
  refine HDiv.set a h x nb hH hx ?_ hp
  rw [hn]
  exact (hH.2 x hx).1

theorem HDiv.set_keepP (a : Nat) (h : Heap) (x : Nat) (nb : BlockHeader) (hH : HDiv a h)
    (hx : a ∣ x) (hn : optDiv a nb.next) (hp : nb.prev = (Heap.get h x).prev) :
    HDiv a (Heap.set h x nb) := by
  refine HDiv.set a h x nb hH hx hn ?_
  rw [hp]
  exact (hH.2 x hx).2

/-- Unlinking a block at an aligned offset preserves the alignment
invariant: every pointer it writes is read from an aligned cell. -/
theorem remove_div (a : Nat) (pool : MemoryPool) (baddr li : Nat)
    (hI : DivInv a pool) (hb : a ∣ baddr) :
    DivInv a (remove_from_free_list pool (some baddr) li) := by
  obtain ⟨hA, hH, hB⟩ := hI
  unfold remove_from_free_list
  split_ifs with hli
  · exact ⟨hA, hH, hB⟩
  · simp only
    refine ⟨hA, ?_, ?_⟩
    · have c1 : HDiv a (match (pool.heap.get baddr).next with
          | some nx => pool.heap.set nx { pool.heap.get nx with prev := (pool.heap.get baddr).prev }
          | none => pool.heap) := by
        cases hn : (pool.heap.get baddr).next with
        | none => exact hH
        | some nx =>
          have hx : a ∣ nx := by
            have h0 := (hH.2 baddr hb).1
            rw [hn] at h0
            exact h0
          exact HDiv.set_keepN a _ nx _ hH hx rfl (hH.2 baddr hb).2
      generalize hh1 : (match (pool.heap.get baddr).next with
        | some nx => pool.heap.set nx { pool.heap.get nx with prev := (pool.heap.get baddr).prev }
        | none => pool.heap) = h1 at c1 ⊢
      have c2 : HDiv a (match (h1.get baddr).prev with
          | some pv => h1.set pv { h1.get pv with next := (h1.get baddr).next }
          | none => h1) := by
        cases hp : (h1.get baddr).prev with
        | none => exact c1
        | some pv =>
          have hx : a ∣ pv := by
            have h0 := (c1.2 baddr hb).2
            rw [hp] at h0
            exact h0
          exact HDiv.set_keepP a _ pv _ c1 hx (c1.2 baddr hb).1 rfl
      generalize hh2 : (match (h1.get baddr).prev with
        | some pv => h1.set pv { h1.get pv with next := (h1.get baddr).next }
        | none => h1) = h2 at c2 ⊢
      exact HDiv.set a _ baddr _ c2 hb trivial trivial
    · refine buckets_set a _ li _ hB ?_
      by_cases hhd : (pool.free_lists.getD li emptyFreeList).head = some baddr
      · rw [if_pos hhd]
        exact (hH.2 baddr hb).1
      · rw [if_neg hhd]
        exact hB li

/-- Head insertion preserves the alignment invariant. -/
theorem add_div (a : Nat) (pool : MemoryPool) (blk : Option Nat)
    (hI : DivInv a pool) (hb : optDiv a blk) :
    DivInv a (add_to_free_list pool blk) := by
  obtain ⟨hA, hH, hB⟩ := hI
  cases blk with
  | none => exact ⟨hA, hH, hB⟩
  | some baddr =>
    have hba : a ∣ baddr := hb
    simp only [add_to_free_list]
    split_ifs with hv
    · refine ⟨hA, ?_, ?_⟩
      · cases hl : (pool.free_lists.getD (get_free_list_index (pool.heap.get baddr).size)
            emptyFreeList).head with
        | none =>
          simp only [hl]
          exact HDiv.set a _ baddr _ hH hba trivial trivial
        | some hd =>
          simp only [hl]
          have hhd : a ∣ hd := by
            have h0 := hB (get_free_list_index (pool.heap.get baddr).size)
            rw [hl] at h0
            exact h0
          refine HDiv.set_keepN a _ hd _ ?_ hhd rfl hba
          exact HDiv.set a _ baddr _ hH hba hhd trivial
      · refine buckets_set a _ _ _ hB ?_
        exact hba
    · exact ⟨hA, hH, hB⟩

/-- Splitting a block at an aligned offset with the pool's own alignment (8
or 16) preserves the invariant, and the new tail offset is aligned. -/
theorem split_div (a : Nat) (pool : MemoryPool) (baddr r : Nat)
    (hI : DivInv a pool) (hb : a ∣ baddr) (ha : a = 8 ∨ a = 16) :
    DivInv a (split_block pool (some baddr) r).1 ∧
    optDiv a (split_block pool (some baddr) r).2 := by
  obtain ⟨hA, hH, hB⟩ := hI
  have hal : a ∣ align_size r pool.alignment := by
    rw [hA]
    exact align_size_dvd r a ha
  have h48 : a ∣ headerSize := by
    rcases ha with rfl | rfl
    · decide
    · decide
  simp only [split_block]
  split_ifs with h1 h2
  · exact ⟨⟨hA, hH, hB⟩, trivial⟩
  · have hnaddr : a ∣ baddr + headerSize + align_size r pool.alignment :=
      dvd_add (dvd_add hb h48) hal
    have c1 : HDiv a (pool.heap.set (baddr + headerSize + align_size r pool.alignment)
        { signature := BLOCK_SIGNATURE,
          size := ((pool.heap.get baddr).size + (U64 - align_size r pool.alignment)) % U64
            - headerSize,
          is_free := true, next := none, prev := some baddr, magic := BLOCK_SIGNATURE }) :=
      HDiv.set a _ _ _ hH hnaddr trivial hb
    generalize hh1 : pool.heap.set (baddr + headerSize + align_size r pool.alignment)
        { signature := BLOCK_SIGNATURE,
          size := ((pool.heap.get baddr).size + (U64 - align_size r pool.alignment)) % U64
            - headerSize,
          is_free := true, next := none, prev := some baddr, magic := BLOCK_SIGNATURE } = h1h
      at c1 ⊢
    have c2 : HDiv a (h1h.set baddr { h1h.get baddr with size := align_size r pool.alignment }) :=
      HDiv.set_keepN a _ baddr _ c1 hb rfl (c1.2 baddr hb).2
    generalize hh2 : h1h.set baddr { h1h.get baddr with size := align_size r pool.alignment } = h2h
      at c2 ⊢
    refine ⟨⟨hA, ?_, hB⟩, hnaddr⟩
    cases hnx : (h2h.get baddr).next with
    | none =>
      exact HDiv.set_keepP a _ baddr _ c2 hb hnaddr rfl
    | some nx =>
      have hx : a ∣ nx := by
        have h0 := (c2.2 baddr hb).1
        rw [hnx] at h0
        exact h0
      refine HDiv.set_keepP a _ baddr _ ?_ hb hnaddr rfl
      refine HDiv.set_keepP a _ _ _ ?_ hnaddr hx rfl
      exact HDiv.set_keepN a _ nx _ c2 hx rfl hnaddr
  · exact ⟨⟨hA, hH, hB⟩, trivial⟩

/-- Forward coalescing preserves the alignment invariant. -/
theorem coalesceForward_div (a : Nat) (fuel : Nat) :
    ∀ (pool : MemoryPool) (baddr : Nat), DivInv a pool → a ∣ baddr →
      DivInv a (coalesceForward pool baddr fuel) := by
  induction fuel with
  | zero =>
    intro pool baddr hI hb
    exact hI
  | succ f ih =>
    intro pool baddr hI hb
    obtain ⟨hA, hH, hB⟩ := hI
    simp only [coalesceForward]
    cases hn : (pool.heap.get baddr).next with
    | none => exact ⟨hA, hH, hB⟩
    | some nx =>
      simp only []
      have hnx : a ∣ nx := by
        have h0 := (hH.2 baddr hb).1
        rw [hn] at h0
        exact h0
      cases hm : (pool.heap.get nx).next with
      | none =>
        split_ifs with hc1 hc2
        · refine ih _ baddr ⟨hA, ?_, hB⟩ hb
          exact HDiv.set_keepP a _ baddr _ hH hb trivial rfl
        · exact ⟨hA, hH, hB⟩
        · exact ⟨hA, hH, hB⟩
      | some nn =>
        split_ifs with hc1 hc2
        · have hnn : a ∣ nn := by
            have h0 := (hH.2 nx hnx).1
            rw [hm] at h0
            exact h0
          refine ih _ baddr ⟨hA, ?_, hB⟩ hb
          refine HDiv.set_keepN a _ nn _ ?_ hnn rfl hb
          exact HDiv.set_keepP a _ baddr _ hH hb hnn rfl
        · exact ⟨hA, hH, hB⟩
        · exact ⟨hA, hH, hB⟩

/-- Backward coalescing preserves the alignment invariant, and the surviving
offset it reports is aligned. -/
theorem coalesceBackward_div (a : Nat) (fuel : Nat) :
    ∀ (pool : MemoryPool) (baddr : Nat), DivInv a pool → a ∣ baddr →
      DivInv a (coalesceBackward pool baddr fuel).1 ∧
      a ∣ (coalesceBackward pool baddr fuel).2 := by
  induction fuel with
  | zero =>
    intro pool baddr hI hb
    exact ⟨hI, hb⟩
  | succ f ih =>
    intro pool baddr hI hb
    obtain ⟨hA, hH, hB⟩ := hI
    simp only [coalesceBackward]
    cases hp : (pool.heap.get baddr).prev with
    | none => exact ⟨⟨hA, hH, hB⟩, hb⟩
    | some pv =>
      simp only []
      have hpv : a ∣ pv := by
        have h0 := (hH.2 baddr hb).2
        rw [hp] at h0
        exact h0
      cases hm : (pool.heap.get baddr).next with
      | none =>
        split_ifs with hc1 hc2
        · refine ih _ pv ⟨hA, ?_, hB⟩ hpv
          exact HDiv.set_keepP a _ pv _ hH hpv trivial rfl
        · exact ⟨⟨hA, hH, hB⟩, hb⟩
        · exact ⟨⟨hA, hH, hB⟩, hb⟩
      | some nn =>
        split_ifs with hc1 hc2
        · have hnn : a ∣ nn := by
            have h0 := (hH.2 baddr hb).1
            rw [hm] at h0
            exact h0
          refine ih _ pv ⟨hA, ?_, hB⟩ hpv
          refine HDiv.set_keepN a _ nn _ ?_ hnn rfl hpv
          exact HDiv.set_keepP a _ pv _ hH hpv hnn rfl
        · exact ⟨⟨hA, hH, hB⟩, hb⟩
        · exact ⟨⟨hA, hH, hB⟩, hb⟩

/-- `coalesce_blocks` preserves the alignment invariant and hands an aligned
survivor to `add_to_free_list`. -/
theorem coalesce_div (a : Nat) (pool : MemoryPool) (blk : Option Nat)
    (hI : DivInv a pool) (hb : optDiv a blk) :
    DivInv a (coalesce_blocks pool blk).1 ∧ optDiv a (coalesce_blocks pool blk).2 := by
  cases blk with
  | none => exact ⟨hI, trivial⟩
  | some baddr =>
    simp only [coalesce_blocks]
    split_ifs with hg
    · exact ⟨hI, hb⟩
    · have h1 := coalesceForward_div a (pool.heap.length + 1) pool baddr hI hb
      have h2 := coalesceBackward_div a
        ((coalesceForward pool baddr (pool.heap.length + 1)).heap.length + 1)
        (coalesceForward pool baddr (pool.heap.length + 1)) baddr h1 hb
      exact ⟨h2.1, h2.2⟩

theorem allocMark_div (a : Nat) (q : MemoryPool) (baddr : Nat) (hI : DivInv a q)
    (hb : a ∣ baddr) : DivInv a (allocMark q baddr) := by
  obtain ⟨hA, hH, hB⟩ := hI
  refine ⟨hA, ?_, hB⟩
  exact HDiv.set_keepN a _ baddr _ hH hb rfl (hH.2 baddr hb).2

theorem allocStats_div (a : Nat) (q : MemoryPool) (baddr : Nat) (hI : DivInv a q) :
    DivInv a (allocStats q baddr) := by
  obtain ⟨hA, hH, hB⟩ := hI
  simp only [allocStats]
  split_ifs with hpk
  · exact ⟨hA, hH, hB⟩
  · exact ⟨hA, hH, hB⟩

/-- The whole post-search mutation sequence of `memory_pool_alloc` preserves
the alignment invariant when the chosen block is aligned. -/
theorem allocCore_div (a : Nat) (pool : MemoryPool) (baddr bestIdx aligned : Nat)
    (hI : DivInv a pool) (hb : a ∣ baddr) (ha : a = 8 ∨ a = 16) :
    DivInv a (allocCore pool baddr bestIdx aligned) := by
  simp only [allocCore]
  have h1 := remove_div a pool baddr bestIdx hI hb
  have h2 := split_div a (remove_from_free_list pool (some baddr) bestIdx) baddr aligned h1 hb ha
  cases hs : (split_block (remove_from_free_list pool (some baddr) bestIdx)
      (some baddr) aligned).2 with
  | none =>
    simp only [hs]
    exact allocStats_div a _ baddr (allocMark_div a _ baddr h2.1 hb)
  | some snew =>
    simp only [hs]
    have hsd : a ∣ snew := by
      have h0 := h2.2
      rw [hs] at h0
      exact h0
    exact allocStats_div a _ baddr
      (allocMark_div a _ baddr (add_div a _ (some snew) h2.1 hsd) hb)

/-- The search loop only ever returns its incoming candidate or a member of
one of the examined buckets. -/
theorem searchFromAux_mem (pool : MemoryPool) (al : Nat) (fuel : Nat) :
    ∀ (i : Nat) (best : Option Nat) (idx : Nat),
      (searchFromAux pool al fuel i best idx).1 = best ∨
      ∃ j : Nat, ∃ b ∈ bucketAddrs pool j,
        (searchFromAux pool al fuel i best idx).1 = some b := by
  induction fuel with
  | zero =>
    intro i best idx
    exact Or.inl rfl
  | succ f ih =>
    intro i best idx
    simp only [searchFromAux]
    by_cases hi : i < MAX_FREE_LISTS
    · rw [if_pos hi]
      have hSL := searchList_foldBest pool.heap al (pool.heap.length + 1)
        (pool.free_lists.getD i emptyFreeList).head best
      rcases foldBest_sound pool.heap al (chainWalk pool.heap
          (pool.free_lists.getD i emptyFreeList).head (pool.heap.length + 1)) best
        with hF | ⟨b, hbmem, hfb, helig⟩
      · rw [hF] at hSL
        rw [hSL]
        by_cases hp : perfectFit pool.heap al best = true
        · rw [if_pos hp]
          exact Or.inl rfl
        · rw [if_neg hp]
          exact ih (i + 1) best _
      · rw [hfb] at hSL
        rw [hSL]
        by_cases hp : perfectFit pool.heap al (some b) = true
        · rw [if_pos hp]
          exact Or.inr ⟨i, b, hbmem, rfl⟩
        · rw [if_neg hp]
          rcases ih (i + 1) (some b) (if some b = best then idx else i)
            with h2 | ⟨j, b2, hb2, h2⟩
          · exact Or.inr ⟨i, b, hbmem, h2⟩
          · exact Or.inr ⟨j, b2, hb2, h2⟩
    · rw [if_neg hi]
      exact Or.inl rfl

/-- A successful search over an aligned pool yields an aligned block
offset. -/
theorem searchFrom_div (a : Nat) (pool : MemoryPool) (al c baddr idx : Nat)
    (hH : HDiv a pool.heap)
    (hB : ∀ i : Nat, optDiv a (pool.free_lists.getD i emptyFreeList).head)
    (h : searchFrom pool al c none 0 = (some baddr, idx)) : a ∣ baddr := by
  rcases searchFromAux_mem pool al (MAX_FREE_LISTS - c) c none 0 with h1 | ⟨j, b, hbmem, h1⟩
  · rw [searchFrom] at h
    rw [h] at h1
    simp at h1
  · rw [searchFrom] at h
    rw [h] at h1
    simp only at h1
    have hbb : b = baddr := by
      have h2 := h1.symm
      injection h2
    have hd : a ∣ b := chainWalk_div a pool.heap hH.2 (pool.heap.length + 1)
      (pool.free_lists.getD j emptyFreeList).head (hB j) b hbmem
    rw [hbb] at hd
    exact hd

/-- `memory_pool_alloc` preserves the alignment invariant on every path. -/
theorem alloc_div (a : Nat) (pool : MemoryPool) (n : Nat) (hI : DivInv a pool)
    (ha : a = 8 ∨ a = 16) : DivInv a (memory_pool_alloc pool n).1 := by
  simp only [memory_pool_alloc]
  split_ifs with h1 h2
  · exact hI
  · exact hI
  · rcases hs : searchFrom pool (align_size n pool.alignment)
        (get_free_list_index (align_size n pool.alignment)) none 0 with ⟨ob, idx⟩
    cases ob with
    | none => exact hI
    | some baddr =>
      simp only []
      have hb : a ∣ baddr := searchFrom_div a pool _ _ baddr idx hI.2.1 hI.2.2 hs
      exact allocCore_div a pool baddr idx _ hI hb ha

/-- `memory_pool_free` preserves the alignment invariant on every path: an
unaligned payload pointer can never pass header validation, because all
written offsets are aligned and unwritten memory has no valid signature. -/
theorem free_div (a : Nat) (pool : MemoryPool) (ptr : Option Nat) (hI : DivInv a pool) :
    DivInv a (memory_pool_free pool ptr).1 := by
  obtain ⟨hA, hH, hB⟩ := hI
  cases ptr with
  | none => exact ⟨hA, hH, hB⟩
  | some p =>
    simp only [memory_pool_free]
    split_ifs with h1 h2 h3
    · exact ⟨hA, hH, hB⟩
    · exact ⟨hA, hH, hB⟩
    · have hv : validate_block pool.heap (some (p - headerSize)) = true := h2
      have hb : a ∣ p - headerSize := by
        by_contra hnb
        rw [validate_unaligned a pool.heap _ hH.1 hnb] at hv
        exact Bool.noConfusion hv
      simp only [freeCore]
      have hH2 : HDiv a (pool.heap.set (p - headerSize)
          { pool.heap.get (p - headerSize) with is_free := true }) :=
        HDiv.set_keepN a _ _ _ hH hb rfl (hH.2 _ hb).2
      have hc := coalesce_div a
        { pool with used_size := pool.used_size - (pool.heap.get (p - headerSize)).size,
                    num_deallocations := pool.num_deallocations + 1,
                    heap := pool.heap.set (p - headerSize)
                      { pool.heap.get (p - headerSize) with is_free := true } }
        (some (p - headerSize)) ⟨hA, hH2, hB⟩ hb
      exact add_div a _ _ hc.1 hc.2
    · exact ⟨hA, hH, hB⟩

/-- A fresh pool satisfies the alignment invariant: the single block sits at
offset 0 with null links. -/
theorem init_div (a : Nat) (size : Nat) (pool : MemoryPool) (ha : a = 8 ∨ a = 16)
    (h : memory_pool_init false size a = some pool) : DivInv a pool := by
  have hpos : 0 < a := by
    rcases ha with rfl | rfl
    · decide
    · decide
  simp only [memory_pool_init] at h
  by_cases hsz : size = 0
  · rw [if_pos (Or.inr hsz)] at h
    exact absurd h (by simp)
  · rw [if_neg (by simp [hsz])] at h
    rw [Option.some.injEq] at h
    subst h
    refine ⟨?_, ⟨?_, ?_⟩, ?_⟩
    · have he : (if 0 < a then a else 8) = a := if_pos hpos
      exact he
    · intro e he
      simp only [Heap.set, List.mem_singleton] at he
      subst he
      exact Nat.dvd_zero a
    · intro x hx
      simp only [Heap.set, Heap.get]
      split_ifs with hz
      · exact ⟨trivial, trivial⟩
      · exact ⟨trivial, trivial⟩
    · intro i
      by_cases hlen : i < MAX_FREE_LISTS
      · rw [List.getD_eq_getElem?_getD, List.getElem?_map, List.getElem?_range hlen,
          Option.map_some', Option.getD_some]
        split_ifs with hil
        · exact Nat.dvd_zero a
        · exact trivial
      · rw [List.getD_eq_getElem?_getD, List.getElem?_eq_none, Option.getD_none]
        · exact trivial
        · simpa using Nat.le_of_not_lt hlen

/-- Every reachable pool with alignment 8 or 16 satisfies the alignment
invariant. -/
theorem reached_div (a : Nat) (pool : MemoryPool) (ha : a = 8 ∨ a = 16)
    (hr : Reached a pool) : DivInv a pool := by
  induction hr with
  | init size pool h => exact init_div a size pool ha h
  | alloc pool n hr ih => exact alloc_div a pool n ih ha
  | free pool ptr hr ih => exact free_div a pool ptr ih

/-- C6 (amended): on every pool reachable through the API from a successful
`init` with alignment 8 or 16 — the power-of-two alignments dividing
`sizeof(BlockHeader) = 48` — every payload offset returned by
`memory_pool_alloc` is a multiple of the alignment (the mmap base is
page-aligned, so the payload address is aligned too).  For alignment 32 the
separate counterexample shows the very first allocation is already
misaligned. -/
theorem c6_payload_aligned (a : Nat) (ha : a = 8 ∨ a = 16) (pool : MemoryPool)
    (hr : Reached a pool) (n p : Nat) (pool1 : MemoryPool)
    (h : memory_pool_alloc pool n = (pool1, some p)) : p % a = 0 := by
  have hI := reached_div a pool ha hr
  simp only [memory_pool_alloc] at h
  split_ifs at h with hc1 hc2
  · simp at h
  · simp at h
  rcases hs : searchFrom pool (align_size n pool.alignment)
      (get_free_list_index (align_size n pool.alignment)) none 0 with ⟨ob, idx⟩
  rw [hs] at h
  cases ob with
  | none => simp at h
  | some baddr =>
    simp only [] at h
    rw [Prod.mk.injEq] at h
    obtain ⟨hp1, hp2⟩ := h
    rw [Option.some.injEq] at hp2
    subst hp2
    have hb : a ∣ baddr := searchFrom_div a pool _ _ baddr idx hI.2.1 hI.2.2 hs
    have h48 : a ∣ headerSize := by
      rcases ha with rfl | rfl
      · decide
      · decide
    exact Nat.mod_eq_zero_of_dvd (dvd_add hb h48)

theorem c6_payload_aligned_holds : (48 : Nat) % 8 = 0 :=
  c6_payload_aligned 8 (Or.inl rfl) pool0 (Reached.init 4096 pool0 (by decide)) 100 48
    (memory_pool_alloc pool0 100).1 (by decide)

end MemPool
